import Mathlib

/-!
Shallow embedding of the circular-`#include` seeker (crate `ue_rec_deps_seeker`,
live code in `src/lib.rs`: modules `file_info`, `node`, `project`).
The ambient filesystem is modelled as a finite association list from absolute
path to the file's lines; `Path::exists` / `File::open` become lookups in it.
Rust `Rc<RefCell<FileInfo>>` identities become indices into a file store,
`Rc<RefCell<Node>>` identities become indices into a node store.
-/

/-- Filesystem model: absolute path to list of lines. -/
abbrev FS := List (String × List String)

def fsLookup (fs : FS) (p : String) : Option (List String) :=
  (fs.find? (fun e => e.1 == p)).map (fun e => e.2)

/-- Models `Path::new(p).exists()`. -/
def fsExists (fs : FS) (p : String) : Bool :=
  (fsLookup fs p).isSome

/-- Models Rust `str::contains(pat)` (substring containment). -/
def strContains (s pat : String) : Bool :=
  (List.range (s.data.length + 1)).any (fun i => pat.data.isPrefixOf (s.data.drop i))

/-- Kernel of `str::replace(pat, "")` for a non-empty pattern: delete every
leftmost-first, non-overlapping occurrence of `pat`. Structural on a fuel
argument (instantiated with the list length) so that it reduces by `decide`. -/
def delSubFuel (pat : List Char) : Nat → List Char → List Char
  | _, [] => []
  | 0, l => l
  | fuel + 1, c :: rest =>
    if !pat.isEmpty && pat.isPrefixOf (c :: rest) then
      delSubFuel pat fuel (rest.drop (pat.length - 1))
    else
      c :: delSubFuel pat fuel rest

def delSub (pat l : List Char) : List Char :=
  delSubFuel pat l.length l

/-- Models Rust `s.replace(pat, "")` (all occurrences deleted); the empty
pattern is never used by the source. -/
def strRemoveAll (s pat : String) : String :=
  ⟨delSub pat.data s.data⟩

/-- Rust `char::is_whitespace` restricted to the ASCII range (the embedded
strings are ASCII). -/
def rustIsWhitespace (c : Char) : Bool :=
  c == ' ' || c == '\t' || c == '\n' || c == '\x0b' || c == '\x0c' || c == '\r'

/-- Models Rust `str::trim`. -/
def strTrim (s : String) : String :=
  ⟨((s.data.dropWhile rustIsWhitespace).reverse.dropWhile
      rustIsWhitespace).reverse⟩

/-- Splitter kernel: cut the character list at every character satisfying the
predicate (empty pieces kept), as Rust `str::split` does. -/
def splitPredGo (p : Char → Bool) : List Char → List Char → List (List Char)
  | [], acc => [acc.reverse]
  | c :: rest, acc =>
    if p c then acc.reverse :: splitPredGo p rest []
    else splitPredGo p rest (c :: acc)

/-- Models Rust `str::split(sep)` for a character separator. -/
def splitChar (s : String) (sep : Char) : List String :=
  (splitPredGo (fun c => c == sep) s.data []).map (fun l => ⟨l⟩)

/-- Models Rust `str::split_whitespace`: maximal non-empty runs of
non-whitespace characters. -/
def splitWsFields (s : String) : List String :=
  ((splitPredGo rustIsWhitespace s.data []).map
    (fun l => (⟨l⟩ : String))).filter (fun t => !(t == ""))

/-- Models Rust `str::ends_with`. -/
def strEndsWith (s pat : String) : Bool :=
  pat.data.reverse.isPrefixOf s.data.reverse

/-- Drop the last `n` characters (for the spec-side trailing strip). -/
def strDropRight (s : String) (n : Nat) : String :=
  ⟨s.data.take (s.data.length - n)⟩

/-- Models `itertools::all_unique` (no element occurs twice). -/
def allUnique [BEq α] : List α → Bool
  | [] => true
  | x :: xs => !(xs.contains x) && allUnique xs

/-- Models Rust `s.rfind(pat)`: start index of the last occurrence of `pat`
in `s` (char index; the embedded strings are ASCII so this coincides with the
byte index used by Rust). -/
def rfindSub (s pat : String) : Option Nat :=
  ((List.range (s.data.length + 1)).filter
    (fun i => pat.data.isPrefixOf (s.data.drop i))).getLast?

/-- Models the Rust slice `s[i..]` (ASCII: byte index = char index). -/
def strDrop (s : String) (i : Nat) : String :=
  ⟨s.data.drop i⟩

/-- Models Rust `it.split(sep).last().unwrap()` (split never yields an empty
iterator, so the default is never reached). -/
def lastSplitChar (s : String) (sep : Char) : String :=
  (splitChar s sep).getLastD ""

/-- Models Rust `Iterator::position`-style lookup: index of the first element
satisfying the predicate (used for the `files.iter().find(..)` cache hit,
whose `Rc` identity is the index in the store). -/
def findIdxQ (p : α → Bool) : List α → Option Nat
  | [] => none
  | x :: xs => if p x then some 0 else (findIdxQ p xs).map (fun i => i + 1)

/-- Models Rust `Iterator::rfind`: the last element satisfying the predicate. -/
def rfindList (p : α → Bool) : List α → Option α
  | [] => none
  | x :: xs =>
    match rfindList p xs with
    | some y => some y
    | none => if p x then some x else none

/-- `FileType` from `src/lib.rs` (`file_info` module). -/
inductive FileType where
  | Header
  | Source
  | Inline
deriving DecidableEq, Repr, Inhabited

/-- `FileInfo` from `src/lib.rs` (`file_info` module). -/
structure FileInfo where
  abs_path : String
  file_name : String
  module : String
  file_type : FileType
  includes : List String
  processed : Bool
deriving DecidableEq, Repr, Inhabited

/-- The error taxonomy of the fallible operations (`anyhow::bail!` sites of
`src/lib.rs`, one constructor per distinct bail site / io failure). -/
inductive SeekErr where
  | ioError (path : String)
  | unsupportedFileType (ext : String)
  | moduleNotFound (path : String)
  | fileNotFoundInModule
  | fileNotFound
deriving DecidableEq, Repr

deriving instance DecidableEq for Except

/-- The extension dispatch of `FileInfo::create` (`lib.rs:53-61`). -/
def fileTypeOfStr (s : String) : Option FileType :=
  if s == "h" || s == "hpp" then some FileType.Header
  else if s == "c" || s == "cpp" then some FileType.Source
  else if s == "inl" then some FileType.Inline
  else none

/-- Loop body of the include scan of `FileInfo::create` (`lib.rs:67-79`):
trim, split on the space character, take the last field, delete quote chars. -/
def includeLineToken (line : String) : String :=
  strRemoveAll (lastSplitChar (strTrim line) ' ') "\""

/-- Contribution of a single line to `includes` in `FileInfo::create`
(`lib.rs:67-79`). -/
def lineIncludes (line : String) : List String :=
  if strContains line "#include" then
    if strContains line ".generated." || strContains line ".gen." then []
    else [includeLineToken line]
  else []

/-- The include-extraction loop of `FileInfo::create` (`lib.rs:65-79`). -/
def extractIncludes (lines : List String) : List String :=
  lines.foldl (fun acc line => acc ++ lineIncludes line) []

/-- The owning-module lookup of `FileInfo::create` (`lib.rs:81-88`):
`modules.iter().rfind(|(modl, _)| abs_path.contains(modl))`. -/
def moduleOf (abs_path : String) (modules : List (String × List String)) :
    Option (String × List String) :=
  rfindList (fun m => strContains abs_path m.1) modules

/-- `FileInfo::create` (`lib.rs:44-98`): open the file, classify the extension,
extract include tokens, find the owning module. -/
def FileInfo.create (fs : FS) (abs_path : String)
    (modules : List (String × List String)) : Except SeekErr FileInfo :=
  match fsLookup fs abs_path with
  | none => Except.error (SeekErr.ioError abs_path)
  | some file_lines =>
    match fileTypeOfStr (lastSplitChar (lastSplitChar abs_path '/') '.') with
    | none =>
      Except.error (SeekErr.unsupportedFileType
        (lastSplitChar (lastSplitChar abs_path '/') '.'))
    | some file_type =>
      match moduleOf abs_path modules with
      | none => Except.error (SeekErr.moduleNotFound abs_path)
      | some m =>
        Except.ok
          { abs_path := abs_path
            file_name := lastSplitChar abs_path '/'
            module := m.1
            file_type := file_type
            includes := extractIncludes file_lines
            processed := false }

/-- The module-name derivation of `Project::create` (`lib.rs:379-387`):
locate the last occurrence of the anchor segment, slice the suffix, then
`replace("/Public", "").replace("/Private", "")` (which deletes every
occurrence, not only a trailing one). `none` models the `bail!` when the
anchor is absent. -/
def deriveModuleName (inc_folder : String) : Option String :=
  match rfindSub inc_folder "Engine/" with
  | none => none
  | some start_ind =>
    some (strRemoveAll (strRemoveAll (strDrop inc_folder start_ind) "/Public")
      "/Private")

/-- `Project` from `src/lib.rs` (`project` module). The `fs` field models the
ambient filesystem the Rust code reaches through `Path::exists`/`File::open`;
`files` is the shared file catalog (`Rc` identity = list index). The unused
`circular_dependency_paths` field is omitted. -/
structure Project where
  root_path : String
  fs : FS
  modules : List (String × List String)
  files : List FileInfo
deriving Repr

/-- `Project::create_file_info` (`lib.rs:420-426`): parse and cache a file;
on success the new record sits at index `p.files.length`. -/
def Project.create_file_info (p : Project) (abs_path : String) :
    Except SeekErr Nat × Project :=
  match FileInfo.create p.fs abs_path p.modules with
  | Except.ok fi => (Except.ok p.files.length, { p with files := p.files ++ [fi] })
  | Except.error e => (Except.error e, p)

/-- The directory loop of `Project::get_file_in_module` (`lib.rs:472-500`):
probe `include_path ++ "/" ++ part_path` for each candidate directory; at the
first existing path return the cached record, else parse-and-cache (a parse
failure propagates out of the module immediately, as the Rust `?` does). -/
def getFileInModuleGo (fs : FS) (modules : List (String × List String))
    (part_path : String) :
    List String → List FileInfo → Except SeekErr Nat × List FileInfo
  | [], files => (Except.error SeekErr.fileNotFoundInModule, files)
  | include_path :: rest, files =>
    if fsExists fs (include_path ++ "/" ++ part_path) then
      match findIdxQ
          (fun f => f.abs_path == include_path ++ "/" ++ part_path) files with
      | some i => (Except.ok i, files)
      | none =>
        match FileInfo.create fs (include_path ++ "/" ++ part_path) modules with
        | Except.ok fi => (Except.ok files.length, files ++ [fi])
        | Except.error e => (Except.error e, files)
    else getFileInModuleGo fs modules part_path rest files

/-- `Project::get_file_in_module` (`lib.rs:472-500`). -/
def Project.get_file_in_module (p : Project) (modl : String × List String)
    (part_path : String) : Except SeekErr Nat × Project :=
  let r := getFileInModuleGo p.fs p.modules part_path modl.2 p.files
  (r.1, { p with files := r.2 })

/-- The fallback loop of `Project::get_file` (`lib.rs:462-467`): try each
module in stored order, first success wins, an error moves on. -/
def getFileGo (fs : FS) (modules : List (String × List String))
    (part_path : String) :
    List (String × List String) → List FileInfo →
      Except SeekErr Nat × List FileInfo
  | [], files => (Except.error SeekErr.fileNotFound, files)
  | modl :: rest, files =>
    match getFileInModuleGo fs modules part_path modl.2 files with
    | (Except.ok i, files2) => (Except.ok i, files2)
    | (Except.error _, files2) => getFileGo fs modules part_path rest files2

/-- `Project::get_file` (`lib.rs:428-470`): look up the entry module by name,
probe it first, then every other module in stored order. -/
def Project.get_file (p : Project) (part_path : String) (entry_module : String) :
    Except SeekErr Nat × Project :=
  match p.modules.find? (fun m => m.1 == entry_module) with
  | some modl =>
    match getFileInModuleGo p.fs p.modules part_path modl.2 p.files with
    | (Except.ok i, files2) => (Except.ok i, { p with files := files2 })
    | (Except.error _, files2) =>
      let other_modules := p.modules.filter (fun m => !(m.1 == modl.1))
      let r := getFileGo p.fs p.modules part_path other_modules files2
      (r.1, { p with files := r.2 })
  | none =>
    let r := getFileGo p.fs p.modules part_path p.modules p.files
    (r.1, { p with files := r.2 })

/-- `Node` from `src/lib.rs` (`node` module): `file_info` and the `node_path`
entries index the file catalog, `prev` and `children` index the node store. -/
structure Node where
  file_info : Nat
  prev : Option Nat
  children : List Nat
  node_path : List Nat
deriving DecidableEq, Repr, Inhabited

/-- The whole mutable state of one `Node::traverse` run: the project (with its
file catalog), the node store, the `current` pointer and the accumulated
`recursive_paths` report (association list of file name to insertion-ordered
duplicate-free path list, modelling `HashMap<String, HashSet<Vec<String>>>`). -/
structure TravState where
  proj : Project
  nodes : List Node
  current : Nat
  report : List (String × List (List String))
deriving Repr

def TravState.getNode (s : TravState) (i : Nat) : Node :=
  s.nodes.getD i default

def TravState.getFileRec (s : TravState) (i : Nat) : FileInfo :=
  s.proj.files.getD i default

/-- Models `(*file_info).borrow_mut().processed = true` on the shared record. -/
def TravState.markProcessed (s : TravState) (i : Nat) : TravState :=
  { s with proj := { s.proj with
      files := s.proj.files.set i
        { (s.proj.files.getD i default) with processed := true } } }

/-- `Node::is_recursive` (`lib.rs:260-274`): the node is recursive iff the
absolute paths along `node_path` are not all distinct; the terminus name is
the file name of the last `node_path` entry. -/
def Node.is_recursive (s : TravState) (n : Node) : Bool × Option String :=
  let abs_paths := n.node_path.map (fun i => (s.getFileRec i).abs_path)
  if allUnique abs_paths then (false, none)
  else (true, n.node_path.getLast?.map (fun i => (s.getFileRec i).file_name))

/-- `Node::readable_path` (`lib.rs:276-281`). -/
def Node.readable_path (s : TravState) (n : Node) : List String :=
  n.node_path.map (fun i => (s.getFileRec i).file_name)

/-- `HashSet::insert` on the path set. -/
def setInsert (set : List (List String)) (path : List String) :
    List (List String) :=
  if set.contains path then set else set ++ [path]

/-- The `recursive_paths` insertion of `Node::traverse` (`lib.rs:217-224`). -/
def reportInsert (rep : List (String × List (List String))) (key : String)
    (path : List String) : List (String × List (List String)) :=
  if rep.any (fun e => e.1 == key) then
    rep.map (fun e => if e.1 == key then (e.1, setInsert e.2 path) else e)
  else rep ++ [(key, [path])]

/-- `Node::create` (`lib.rs:136-153`) as used while materializing children:
the child references the resolved file, points back to its parent, has no
children yet, and extends the parent's `node_path` by its own file. -/
def childNode (fidx nidx : Nat) (parent_path : List Nat) : Node :=
  { file_info := fidx
    prev := some nidx
    children := []
    node_path := parent_path ++ [fidx] }

/-- The child-creation loop of `Node::create_node_children` (`lib.rs:240-258`)
together with `Node::create` (`lib.rs:136-153`): resolve each include token,
drop unresolved ones, and append one child node per resolved token. -/
def createNodeChildrenGo (nidx : Nat) (parent_path : List Nat) (modname : String) :
    List String → Project → List Node → List Nat →
      Project × List Node × List Nat
  | [], p, nodes, acc => (p, nodes, acc)
  | inc :: rest, p, nodes, acc =>
    match Project.get_file p inc modname with
    | (Except.ok fidx, p2) =>
      createNodeChildrenGo nidx parent_path modname rest p2
        (nodes ++ [childNode fidx nidx parent_path]) (acc ++ [nodes.length])
    | (Except.error _, p2) => createNodeChildrenGo nidx parent_path modname rest p2 nodes acc

/-- The final assignment `node.borrow_mut().children = node_children` of
`Node::create_node_children`: store the children indices on node `nidx`. -/
def setChildren (nodes : List Node) (nidx : Nat) (kids : List Nat) :
    List Node :=
  nodes.set nidx { nodes.getD nidx default with children := kids }

/-- `Node::create_node_children` (`lib.rs:240-258`): materialize the children
of node `nidx` and store their indices in its `children` field. -/
def Node.create_node_children (s : TravState) (nidx : Nat) : TravState :=
  let n := s.getNode nidx
  let fi := s.getFileRec n.file_info
  let r := createNodeChildrenGo nidx n.node_path fi.module fi.includes s.proj
    s.nodes []
  { s with
    proj := r.1
    nodes := setChildren r.2.1 nidx r.2.2 }

/-- Outcome of one iteration of the `loop` in `Node::traverse`: either the
next state (with the absolute path of the cycle terminus recorded this
iteration, if any), or the final report on `break`. -/
inductive StepOut where
  | cont (s : TravState) (ev : Option String)
  | done (report : List (String × List (List String)))

/-- The node the `current` pointer designates. -/
def TravState.curNode (s : TravState) : Node :=
  s.getNode s.current

/-- The shared file record of the current node. -/
def TravState.curFile (s : TravState) : FileInfo :=
  s.getFileRec s.curNode.file_info

/-- The already-processed branch of the loop (`lib.rs:167-177`): go back to
the parent, or `break` with the report at the root. -/
def stepBack (s : TravState) : StepOut :=
  match s.curNode.prev with
  | some previous => StepOut.cont { s with current := previous } none
  | none => StepOut.done s.report

/-- The recursive-child branch of the loop (`lib.rs:206-226`): mark the
child's shared record processed, insert the readable path under the terminus
file name, stay on the current node. The step event records the terminus
record's absolute path. -/
def stepRecord (s1 : TravState) (c : Nat) : StepOut :=
  let s2 := s1.markProcessed (s1.getNode c).file_info
  StepOut.cont
    { s2 with
      report := reportInsert s2.report
        ((Node.is_recursive s1 (s1.getNode c)).2.getD "")
        (Node.readable_path s2 (s1.getNode c)) }
    (some ((s2.getFileRec (s1.getNode c).file_info).abs_path))

/-- The child-scanning phase of the loop (`lib.rs:198-234`), run on the state
`s1` in which children have been materialized if they were going to be. -/
def stepFind (s1 : TravState) : StepOut :=
  match s1.curNode.children.find?
      (fun c => !(s1.getFileRec (s1.getNode c).file_info).processed) with
  | none => StepOut.cont (s1.markProcessed s1.curNode.file_info) none
  | some c =>
    if (Node.is_recursive s1 (s1.getNode c)).1 then stepRecord s1 c
    else StepOut.cont { s1 with current := c } none

/-- One iteration of the `loop` of `Node::traverse` (`lib.rs:163-235`). -/
def traverseStep (s : TravState) : StepOut :=
  if s.curFile.processed then stepBack s
  else if s.curNode.children.isEmpty && s.curFile.includes.isEmpty then
    StepOut.cont (s.markProcessed s.curNode.file_info) none
  else if s.curNode.children.isEmpty then
    stepFind (Node.create_node_children s s.current)
  else stepFind s

/-- `Node::traverse` (`lib.rs:155-238`), fuel-indexed: `none` means the fuel
ran out before the loop reached `break`. -/
def Node.traverse : Nat → TravState → Option (List (String × List (List String)))
  | 0, _ => none
  | n + 1, s =>
    match traverseStep s with
    | StepOut.cont s2 _ => Node.traverse n s2
    | StepOut.done r => some r

/-- The cycle-terminus absolute paths recorded by the successive iterations,
in order (instrumentation of the same step function). -/
def traverseTrace : Nat → TravState → List String
  | 0, _ => []
  | n + 1, s =>
    match traverseStep s with
    | StepOut.cont s2 (some q) => q :: traverseTrace n s2
    | StepOut.cont s2 none => traverseTrace n s2
    | StepOut.done _ => []

/-- The traversal set-up of `find_rec_deps` (`lib.rs:534-540`) minus the
build-descriptor parsing: the module index is given, the entry file is parsed
and cached, the root node is created, then `Node::traverse` runs. -/
def initSeeker (fs : FS) (modules : List (String × List String))
    (entry : String) : Except SeekErr TravState :=
  match FileInfo.create fs entry modules with
  | Except.error e => Except.error e
  | Except.ok fi =>
    Except.ok
      { proj := { root_path := "", fs := fs, modules := modules, files := [fi] }
        nodes := [{ file_info := 0, prev := none, children := [], node_path := [0] }]
        current := 0
        report := [] }

/-- Run the whole pipeline on a modelled filesystem. -/
def runSeeker (fs : FS) (modules : List (String × List String))
    (entry : String) (fuel : Nat) :
    Option (List (String × List (List String))) :=
  match initSeeker fs modules entry with
  | Except.error _ => none
  | Except.ok s => Node.traverse fuel s

/-! Test fixtures: small modelled filesystems used by the concrete claims. -/

/-- Chain-cycle fixture: `A.h` includes `B.h`, `B.h` includes `C.h`,
`C.h` includes `A.h`, no other edges, one module. -/
def chainFS : FS :=
  [ ("Engine/M/A.h", ["#include \"B.h\""])
  , ("Engine/M/B.h", ["#include \"C.h\""])
  , ("Engine/M/C.h", ["#include \"A.h\""]) ]

def oneModule : List (String × List String) := [("Engine/M", ["Engine/M"])]

/-- Self-include fixture: `A.h` includes itself. -/
def selfFS : FS := [("Engine/M/A.h", ["#include \"A.h\""])]

/-- Unsupported-extension fixture: `A.h` includes `Foo.txt`, which exists and
is reachable through the one indexed module. -/
def txtFS : FS :=
  [ ("Engine/M/A.h", ["#include \"Foo.txt\""])
  , ("Engine/M/Foo.txt", ["anything"]) ]

/-! Spec-side definitions (written from the spec's words, for comparison with
the definitions taken from the source). -/

/-- Modelled from the spec (claim C4 wording): suffix from the last anchor
occurrence with only a trailing `/Public` or `/Private` component stripped. -/
def specModuleNameTrailing (inc_folder : String) : Option String :=
  (rfindSub inc_folder "Engine/").map (fun i =>
    let suffix := strDrop inc_folder i
    if strEndsWith suffix "/Public" then strDropRight suffix 7
    else if strEndsWith suffix "/Private" then strDropRight suffix 8
    else suffix)

/-- Modelled from the spec (claim C5 wording): the last whitespace-separated
field of the trimmed line (fields as Rust `split_whitespace` produces them),
with quote characters removed. -/
def specTokenWhitespace (line : String) : String :=
  strRemoveAll ((splitWsFields (strTrim line)).getLastD "") "\""

/-- Modelled from the spec (claim C5 wording): per-line contribution to the
extracted include list, using the whitespace-field token. -/
def specLineIncludesWhitespace (line : String) : List String :=
  if strContains line "#include" then
    if strContains line ".generated." || strContains line ".gen." then []
    else [specTokenWhitespace line]
  else []

/-- Per-line contribution as the amended claim C5 states it: the last
space-separated (`' '`-separated) field of the trimmed line with quote
characters removed, nothing for generated lines. -/
def specLineIncludesSpace (line : String) : List String :=
  if strContains line "#include" then
    if strContains line ".generated." || strContains line ".gen." then []
    else [strRemoveAll (lastSplitChar (strTrim line) ' ') "\""]
  else []

/-! C1, C9, C3: concrete traversal runs. -/

/-- C1: with A includes B, B includes C, C includes A and no other edges, all
three resolvable, the traversal rooted at A returns the report mapping the
single terminus name to the single readable path A,B,C,A. (File names carry
the mandatory `.h` extension: the run aborts on extension-less files, so the
spec's schematic names A, B, C are instantiated as `A.h`, `B.h`, `C.h`.) -/
theorem chain_cycle_report_c1 :
    runSeeker chainFS oneModule "Engine/M/A.h" 30 =
      some [("A.h", [["A.h", "B.h", "C.h", "A.h"]])] := by
  decide

/-- C9: a file that includes itself is detected at the one-step child, whose
`node_path` is the two-element list A, A, and the report maps the file name to
the single two-element readable path. -/
theorem self_include_report_c9 :
    runSeeker selfFS oneModule "Engine/M/A.h" 10 =
      some [("A.h", [["A.h", "A.h"]])] := by
  decide

/-- C3: a graph-reachable `Foo.txt` does NOT abort the run in the live code:
`FileInfo::create` does fail with the unsupported-file-type error, but
`Project::get_file` swallows it, `create_node_children` drops the edge
(`Err(_) => None`), and the traversal completes with an empty report. -/
theorem unsupported_file_type_dropped_c3 :
    FileInfo.create txtFS "Engine/M/Foo.txt" oneModule =
        Except.error (SeekErr.unsupportedFileType "txt") ∧
      (Project.get_file
          { root_path := "", fs := txtFS, modules := oneModule,
            files := [] } "Foo.txt" "Engine/M").1 =
        Except.error SeekErr.fileNotFound ∧
      runSeeker txtFS oneModule "Engine/M/A.h" 10 = some [] := by
  refine ⟨by decide, by decide, by decide⟩

/-! C4: module-name derivation. -/

/-- C4 counterexample: for the candidate directory `Engine/Public/X/Public`
the code removes every occurrence of `/Public` (giving `Engine/X`), while the
claim demands that only the trailing component be stripped (which would give
`Engine/Public/X`). -/
theorem module_name_trailing_cex_c4 :
    deriveModuleName "Engine/Public/X/Public" = some "Engine/X" ∧
      specModuleNameTrailing "Engine/Public/X/Public" =
        some "Engine/Public/X" ∧
      deriveModuleName "Engine/Public/X/Public" ≠
        specModuleNameTrailing "Engine/Public/X/Public" := by
  refine ⟨by decide, by decide, by decide⟩

/-- C4 amended: for every retained candidate directory in which the anchor
segment occurs, the derived module name is the suffix starting at the last
anchor occurrence with EVERY occurrence of `/Public` removed and then every
occurrence of `/Private` removed (leftmost-first, non-overlapping), not only
trailing ones. -/
theorem module_name_all_occurrences_c4 (inc_folder : String) (i : Nat)
    (h : rfindSub inc_folder "Engine/" = some i) :
    deriveModuleName inc_folder =
      some (strRemoveAll (strRemoveAll (strDrop inc_folder i) "/Public")
        "/Private") := by
  unfold deriveModuleName
  rw [h]

theorem module_name_all_occurrences_c4_witness :
    rfindSub "Engine/Source/Private/Core/Public" "Engine/" = some 0 ∧
      deriveModuleName "Engine/Source/Private/Core/Public" =
        some (strRemoveAll
          (strRemoveAll (strDrop "Engine/Source/Private/Core/Public" 0)
            "/Public") "/Private") :=
  ⟨by decide,
    module_name_all_occurrences_c4 "Engine/Source/Private/Core/Public" 0
      (by decide)⟩

/-! C5: include-token extraction. -/

/-- C5 counterexample: on the line containing a tab between `#include` and the
token, the code (which splits on the space character only) extracts the whole
line as the token, while the claim's whitespace-separated reading extracts
`X.h`. -/
theorem include_token_whitespace_cex_c5 :
    lineIncludes "#include\t\"X.h\"" = ["#include\tX.h"] ∧
      specLineIncludesWhitespace "#include\t\"X.h\"" = ["X.h"] ∧
      lineIncludes "#include\t\"X.h\"" ≠
        specLineIncludesWhitespace "#include\t\"X.h\"" := by
  refine ⟨by decide, by decide, by decide⟩

/-- C5 amended: for every parsed line, the contribution to the extracted
include list is: nothing unless the line contains `#include`; nothing if it
contains `.generated.` or `.gen.`; otherwise exactly the last
space-character-separated field of the trimmed line with quote characters
removed. The whole extraction is the concatenation of the per-line
contributions in line order. -/
theorem include_token_space_split_c5 (lines : List String) :
    extractIncludes lines = (lines.map specLineIncludesSpace).flatten := by
  have hgen : ∀ acc, lines.foldl (fun acc line => acc ++ lineIncludes line) acc
      = acc ++ (lines.map specLineIncludesSpace).flatten := by
    induction lines with
    | nil => intro acc; simp
    | cons l ls ih =>
      intro acc
      simp only [List.foldl_cons, List.map_cons, List.flatten_cons]
      rw [ih]
      simp [lineIncludes, specLineIncludesSpace, includeLineToken,
        List.append_assoc]
  simpa using hgen []

/-! C6: longest-module-match lookup. -/

theorem rfindList_some_mem {p : α → Bool} {l : List α} {y : α}
    (h : rfindList p l = some y) : p y = true ∧ y ∈ l := by
  induction l generalizing y with
  | nil => simp [rfindList] at h
  | cons x xs ih =>
    simp only [rfindList] at h
    rcases hx : rfindList p xs with _ | z
    · rw [hx] at h
      by_cases hp : p x
      · simp [hp] at h
        subst h
        exact ⟨hp, List.mem_cons_self x xs⟩
      · simp [hp] at h
    · rw [hx] at h
      simp at h
      subst h
      obtain ⟨hpz, hmem⟩ := ih hx
      exact ⟨hpz, List.mem_cons_of_mem x hmem⟩

theorem rfindList_eq_none {p : α → Bool} {l : List α}
    (h : rfindList p l = none) : ∀ m ∈ l, p m = false := by
  induction l with
  | nil => simp
  | cons x xs ih =>
    simp only [rfindList] at h
    rcases hx : rfindList p xs with _ | z
    · rw [hx] at h
      by_cases hp : p x
      · simp [hp] at h
      · intro m hm
        rcases List.mem_cons.mp hm with rfl | hm2
        · simpa using hp
        · exact ih hx m hm2
    · rw [hx] at h
      simp at h

/-- C6: when the module list is sorted ascending by name length, the
owning-module lookup (an `rfind`, i.e. a scan from the end for the first
substring match) returns a module whose name matches the file's absolute path
and is at least as long as every matching module name; and it finds one
whenever any module matches. -/
theorem module_lookup_longest_match_c6 (modules : List (String × List String))
    (abs_path : String)
    (hsorted : modules.Pairwise (fun a b => a.1.length ≤ b.1.length)) :
    (∀ r, moduleOf abs_path modules = some r →
        strContains abs_path r.1 = true ∧
          ∀ m ∈ modules, strContains abs_path m.1 = true →
            m.1.length ≤ r.1.length) ∧
      ((∃ m ∈ modules, strContains abs_path m.1 = true) →
        (moduleOf abs_path modules).isSome = true) := by
  unfold moduleOf
  induction modules with
  | nil =>
    refine ⟨fun r hr => by simp [rfindList] at hr, ?_⟩
    rintro ⟨m, hm, _⟩
    simp at hm
  | cons x xs ih =>
    obtain ⟨hx_le, hxs_sorted⟩ := List.pairwise_cons.mp hsorted
    obtain ⟨ih1, ih2⟩ := ih hxs_sorted
    constructor
    · intro r hr
      simp only [rfindList] at hr
      rcases hrec : rfindList (fun m => strContains abs_path m.1) xs with _ | z
      · rw [hrec] at hr
        by_cases hp : strContains abs_path x.1
        · simp [hp] at hr
          subst hr
          refine ⟨hp, ?_⟩
          intro m hm hmc
          rcases List.mem_cons.mp hm with rfl | hm2
          · exact le_refl _
          · exact absurd hmc (by simp [rfindList_eq_none hrec m hm2])
        · simp [hp] at hr
      · rw [hrec] at hr
        simp at hr
        subst hr
        obtain ⟨hrc, hrlen⟩ := ih1 z hrec
        refine ⟨hrc, ?_⟩
        intro m hm hmc
        rcases List.mem_cons.mp hm with rfl | hm2
        · obtain ⟨_, hz_mem⟩ := rfindList_some_mem hrec
          exact hx_le z hz_mem
        · exact hrlen m hm2 hmc
    · rintro ⟨m, hm, hmc⟩
      simp only [rfindList]
      rcases hrec : rfindList (fun m => strContains abs_path m.1) xs with _ | z
      · rcases List.mem_cons.mp hm with rfl | hm2
        · simp [hrec, hmc]
        · exact absurd hmc (by simp [rfindList_eq_none hrec m hm2])
      · simp [hrec]

theorem module_lookup_longest_match_c6_witness :
    ([("Engine/Source/Runtime", ([] : List String)),
        ("Engine/Source/Runtime/Core", [])].Pairwise
          (fun a b => a.1.length ≤ b.1.length)) ∧
      ((∀ r, moduleOf "Engine/Source/Runtime/Core/Private/X.h"
            [("Engine/Source/Runtime", []), ("Engine/Source/Runtime/Core", [])]
            = some r →
          strContains "Engine/Source/Runtime/Core/Private/X.h" r.1 = true ∧
            ∀ m ∈ [("Engine/Source/Runtime", ([] : List String)),
                ("Engine/Source/Runtime/Core", [])],
              strContains "Engine/Source/Runtime/Core/Private/X.h" m.1 = true →
                m.1.length ≤ r.1.length) ∧
        ((∃ m ∈ [("Engine/Source/Runtime", ([] : List String)),
              ("Engine/Source/Runtime/Core", [])],
            strContains "Engine/Source/Runtime/Core/Private/X.h" m.1 = true) →
          (moduleOf "Engine/Source/Runtime/Core/Private/X.h"
            [("Engine/Source/Runtime", []),
              ("Engine/Source/Runtime/Core", [])]).isSome = true)) :=
  ⟨by decide,
    module_lookup_longest_match_c6
      [("Engine/Source/Runtime", []), ("Engine/Source/Runtime/Core", [])]
      "Engine/Source/Runtime/Core/Private/X.h" (by decide)⟩

/-! Auxiliary lemmas about the lookup primitives. -/

theorem findIdxQ_eq_none {p : α → Bool} {l : List α}
    (h : findIdxQ p l = none) : ∀ x ∈ l, p x = false := by
  induction l with
  | nil => simp
  | cons x xs ih =>
    simp only [findIdxQ] at h
    by_cases hp : p x
    · simp [hp] at h
    · intro y hy
      rcases List.mem_cons.mp hy with rfl | hy2
      · simpa using hp
      · simp [hp, Option.map_eq_none'] at h
        exact ih h y hy2

theorem findIdxQ_eq_some [Inhabited α] {p : α → Bool} {l : List α} {i : Nat}
    (h : findIdxQ p l = some i) :
    i < l.length ∧ p (l.getD i default) = true := by
  induction l generalizing i with
  | nil => simp [findIdxQ] at h
  | cons x xs ih =>
    simp only [findIdxQ] at h
    by_cases hp : p x
    · simp [hp] at h
      subst h
      simpa using hp
    · simp [hp, Option.map_eq_some'] at h
      obtain ⟨j, hj, hij⟩ := h
      subst hij
      obtain ⟨hlt, hpj⟩ := ih hj
      constructor
      · simpa using hlt
      · simpa using hpj

theorem findIdxQ_append_left {p : α → Bool} {l t : List α} {i : Nat}
    (h : findIdxQ p l = some i) : findIdxQ p (l ++ t) = some i := by
  induction l generalizing i with
  | nil => simp [findIdxQ] at h
  | cons x xs ih =>
    simp only [findIdxQ] at h ⊢
    by_cases hp : p x
    · simpa [hp] using h
    · simp [hp, Option.map_eq_some'] at h ⊢
      obtain ⟨j, hj, hij⟩ := h
      exact ⟨j, ih hj, hij⟩

theorem findIdxQ_append_hit {p : α → Bool} {l : List α}
    (h : findIdxQ p l = none) {y : α} (hy : p y = true) :
    findIdxQ p (l ++ [y]) = some l.length := by
  induction l with
  | nil => simp [findIdxQ, hy]
  | cons x xs ih =>
    rcases hp : p x with _ | _
    · simp only [findIdxQ, hp] at h
      simp only [Bool.false_eq_true, if_false, Option.map_eq_none'] at h
      simp [findIdxQ, hp, ih h]
    · simp [findIdxQ, hp] at h

/-- `allUnique` agrees with `List.Nodup` (for a lawful `BEq`). -/
theorem allUnique_iff_nodup [DecidableEq α] {l : List α} :
    allUnique l = true ↔ l.Nodup := by
  induction l with
  | nil => simp [allUnique]
  | cons x xs ih =>
    simp [allUnique, ih]

/-! Facts about `FileInfo.create`. -/

theorem create_ok_facts {fs : FS} {q : String}
    {modules : List (String × List String)} {fi : FileInfo}
    (h : FileInfo.create fs q modules = Except.ok fi) :
    fi.abs_path = q ∧ fi.processed = false ∧ fsExists fs q = true := by
  unfold FileInfo.create at h
  rcases hl : fsLookup fs q with _ | lines <;> rw [hl] at h
  · simp at h
  · rcases ht : fileTypeOfStr (lastSplitChar (lastSplitChar q '/') '.')
        with _ | ft <;> rw [ht] at h
    · simp at h
    · rcases hm : moduleOf q modules with _ | m <;> rw [hm] at h
      · simp at h
      · simp only [Except.ok.injEq] at h
        subst h
        refine ⟨rfl, rfl, ?_⟩
        simp [fsExists, hl]

/-! Effect lemmas for the resolver (`get_file_in_module` / `get_file`). -/

def pathsOf (files : List FileInfo) : List String :=
  files.map (fun f => f.abs_path)

theorem gfimGo_error_files {fs : FS} {modules : List (String × List String)}
    {pp : String} : ∀ {dirs : List String} {files : List FileInfo} {e : SeekErr}
    {fl : List FileInfo},
    getFileInModuleGo fs modules pp dirs files = (Except.error e, fl) →
      fl = files := by
  intro dirs
  induction dirs with
  | nil =>
    intro files e fl h
    simp only [getFileInModuleGo, Prod.mk.injEq] at h
    exact h.2.symm
  | cons d rest ih =>
    intro files e fl h
    simp only [getFileInModuleGo] at h
    rcases hex : fsExists fs (d ++ "/" ++ pp) with _ | _
    · simp only [hex, Bool.false_eq_true, if_false] at h
      exact ih h
    · simp only [hex, if_true] at h
      rcases hidx : findIdxQ (fun f => f.abs_path == d ++ "/" ++ pp) files
          with _ | i
      · rw [hidx] at h
        cases hc : FileInfo.create fs (d ++ "/" ++ pp) modules with
        | ok fi =>
          rw [hc] at h
          simp at h
        | error e2 =>
          rw [hc] at h
          simp only [Prod.mk.injEq] at h
          exact h.2.symm
      · rw [hidx] at h
        simp at h

theorem gfimGo_ok_shape {fs : FS} {modules : List (String × List String)}
    {pp : String} : ∀ {dirs : List String} {files : List FileInfo} {i : Nat}
    {fl : List FileInfo},
    getFileInModuleGo fs modules pp dirs files = (Except.ok i, fl) →
      (fl = files ∧ i < files.length) ∨
        (∃ fi, fl = files ++ [fi] ∧ i = files.length ∧
          FileInfo.create fs fi.abs_path modules = Except.ok fi ∧
          findIdxQ (fun f => f.abs_path == fi.abs_path) files = none) := by
  intro dirs
  induction dirs with
  | nil =>
    intro files i fl h
    simp [getFileInModuleGo] at h
  | cons d rest ih =>
    intro files i fl h
    simp only [getFileInModuleGo] at h
    rcases hex : fsExists fs (d ++ "/" ++ pp) with _ | _
    · simp only [hex, Bool.false_eq_true, if_false] at h
      exact ih h
    · simp only [hex, if_true] at h
      rcases hidx : findIdxQ (fun f => f.abs_path == d ++ "/" ++ pp) files
          with _ | j
      · rw [hidx] at h
        cases hc : FileInfo.create fs (d ++ "/" ++ pp) modules with
        | ok fi =>
          rw [hc] at h
          simp only [Prod.mk.injEq, Except.ok.injEq] at h
          obtain ⟨hi, hfl⟩ := h
          right
          obtain ⟨hpath, _, _⟩ := create_ok_facts hc
          refine ⟨fi, hfl.symm, hi.symm, ?_, ?_⟩
          · rw [hpath]
            exact hc
          · rw [hpath]
            exact hidx
        | error e2 =>
          rw [hc] at h
          simp at h
      · rw [hidx] at h
        simp only [Prod.mk.injEq, Except.ok.injEq] at h
        obtain ⟨hi, hfl⟩ := h
        left
        exact ⟨hfl.symm, hi ▸ (findIdxQ_eq_some hidx).1⟩

theorem getFileGo_shape {fs : FS} {modules : List (String × List String)}
    {pp : String} : ∀ {ms : List (String × List String)}
    {files : List FileInfo} {r : Except SeekErr Nat} {fl : List FileInfo},
    getFileGo fs modules pp ms files = (r, fl) →
      ((∃ e, r = Except.error e) → fl = files) ∧
        (∀ i, r = Except.ok i →
          (fl = files ∧ i < files.length) ∨
            (∃ fi, fl = files ++ [fi] ∧ i = files.length ∧
              FileInfo.create fs fi.abs_path modules = Except.ok fi ∧
              findIdxQ (fun f => f.abs_path == fi.abs_path) files = none)) := by
  intro ms
  induction ms with
  | nil =>
    intro files r fl h
    simp only [getFileGo, Prod.mk.injEq] at h
    obtain ⟨hr, hfl⟩ := h
    subst hr
    constructor
    · intro _
      exact hfl.symm
    · intro i hi
      simp at hi
  | cons m rest ih =>
    intro files r fl h
    simp only [getFileGo] at h
    rcases hg : getFileInModuleGo fs modules pp m.2 files with ⟨rg, flg⟩
    rw [hg] at h
    cases rg with
    | ok j =>
      simp only [Prod.mk.injEq] at h
      obtain ⟨hr, hfl⟩ := h
      subst hr
      constructor
      · rintro ⟨e, he⟩
        simp at he
      · intro i hi
        simp only [Except.ok.injEq] at hi
        subst hi
        subst hfl
        exact gfimGo_ok_shape hg
    | error e2 =>
      have hfg : flg = files := gfimGo_error_files hg
      subst hfg
      exact ih h

theorem get_file_shape {p : Project} {pp em : String}
    {r : Except SeekErr Nat} {p2 : Project}
    (h : Project.get_file p pp em = (r, p2)) :
    p2.root_path = p.root_path ∧ p2.fs = p.fs ∧ p2.modules = p.modules ∧
      ((∃ e, r = Except.error e) → p2 = p) ∧
      (∀ i, r = Except.ok i →
        (p2.files = p.files ∧ i < p.files.length) ∨
          (∃ fi, p2.files = p.files ++ [fi] ∧ i = p.files.length ∧
            FileInfo.create p.fs fi.abs_path p.modules = Except.ok fi ∧
            findIdxQ (fun f => f.abs_path == fi.abs_path) p.files = none)) := by
  unfold Project.get_file at h
  split at h
  next modl hroot =>
    split at h
    next j files2 hg =>
      simp only [Prod.mk.injEq] at h
      obtain ⟨hr, hp2⟩ := h
      subst hr
      subst hp2
      refine ⟨rfl, rfl, rfl, ?_, ?_⟩
      · rintro ⟨e, he⟩
        simp at he
      · intro i hi
        simp only [Except.ok.injEq] at hi
        subst hi
        exact gfimGo_ok_shape hg
    next e2 files2 hg =>
      have hfg : files2 = p.files := gfimGo_error_files hg
      subst hfg
      simp only [Prod.mk.injEq] at h
      obtain ⟨hr, hp2⟩ := h
      subst hr
      subst hp2
      obtain ⟨herr, hok⟩ := getFileGo_shape
        (Prod.mk.eta.symm :
          getFileGo p.fs p.modules pp
              (List.filter (fun m => !(m.1 == modl.1)) p.modules) p.files =
            ((getFileGo p.fs p.modules pp
                (List.filter (fun m => !(m.1 == modl.1)) p.modules) p.files).1,
              (getFileGo p.fs p.modules pp
                (List.filter (fun m => !(m.1 == modl.1)) p.modules)
                p.files).2))
      refine ⟨rfl, rfl, rfl, ?_, ?_⟩
      · intro he
        have hfl := herr he
        rw [hfl]
      · intro i hi
        exact hok i hi
  next hroot =>
    simp only [Prod.mk.injEq] at h
    obtain ⟨hr, hp2⟩ := h
    subst hr
    subst hp2
    obtain ⟨herr, hok⟩ := getFileGo_shape
      (Prod.mk.eta.symm :
        getFileGo p.fs p.modules pp p.modules p.files =
          ((getFileGo p.fs p.modules pp p.modules p.files).1,
            (getFileGo p.fs p.modules pp p.modules p.files).2))
    refine ⟨rfl, rfl, rfl, ?_, ?_⟩
    · intro he
      have hfl := herr he
      rw [hfl]
    · intro i hi
      exact hok i hi

/-! Well-formedness of a traversal state and the termination measure. -/

theorem getD_set_self {l : List α} {i : Nat} (h : i < l.length) (x d : α) :
    (l.set i x).getD i d = x := by
  simp [List.getD_eq_getElem?_getD, List.getElem?_set_self, h]

theorem getD_set_ne {l : List α} {i j : Nat} (h : i ≠ j) (x d : α) :
    (l.set i x).getD j d = l.getD j d := by
  simp [List.getD_eq_getElem?_getD, List.getElem?_set_ne, h]

theorem getD_append_left {l t : List α} {i : Nat} (h : i < l.length) (d : α) :
    (l ++ t).getD i d = l.getD i d :=
  List.getD_append l t d i h

theorem getD_mem {l : List α} {i : Nat} (h : i < l.length) (d : α) :
    l.getD i d ∈ l := by
  rw [List.getD_eq_getElem?_getD, List.getElem?_eq_getElem h]
  simp

/-- Per-node well-formedness: the file index and every `node_path` entry
point into the catalog, and `node_path` ends at the node's own file. -/
def nodeOk (s : TravState) (n : Node) : Prop :=
  n.file_info < s.proj.files.length ∧ n.node_path ≠ [] ∧
    n.node_path.getLast? = some n.file_info ∧
    ∀ j ∈ n.node_path, j < s.proj.files.length

/-- Parent-link well-formedness: a child's `node_path` extends its parent's
by its own file (exactly how `Node::create` builds it). -/
def prevOk (s : TravState) (k : Nat) : Prop :=
  match (s.getNode k).prev with
  | some pr =>
    pr < k ∧
      (s.getNode k).node_path =
        (s.getNode pr).node_path ++ [(s.getNode k).file_info]
  | none => (s.getNode k).node_path = [(s.getNode k).file_info]

instance instDecidablePrevOk (s : TravState) (k : Nat) :
    Decidable (prevOk s k) := by
  unfold prevOk
  cases (s.getNode k).prev <;> exact inferInstance

/-- Child-link well-formedness: stored children indices are in range and
point back to their parent. -/
def childrenOk (s : TravState) (k : Nat) : Prop :=
  ∀ c ∈ (s.getNode k).children, c < s.nodes.length ∧
    (s.getNode c).prev = some k

/-- The absolute paths along the current node's tree path are distinct
(the traversal only ever descends into non-recursive children). -/
def curPathsNodup (s : TravState) : Prop :=
  ((s.getNode s.current).node_path.map
    (fun j => (s.getFileRec j).abs_path)).Nodup

/-- Well-formedness of a traversal state. -/
def WF (s : TravState) : Prop :=
  s.current < s.nodes.length ∧
    (∀ n ∈ s.nodes, nodeOk s n) ∧
    (∀ k, k < s.nodes.length → prevOk s k) ∧
    (∀ k, k < s.nodes.length → childrenOk s k) ∧
    curPathsNodup s ∧
    (∀ f ∈ s.proj.files, fsExists s.proj.fs f.abs_path = true) ∧
    (pathsOf s.proj.files).Nodup

/-- The distinct filesystem paths: the supply of files the run can reach. -/
def fsKeys (s : TravState) : List String :=
  (s.proj.fs.map (fun e => e.1)).dedup

/-- A path is covered once some catalog record for it is processed. -/
def coveredB (files : List FileInfo) (q : String) : Bool :=
  files.any (fun f => f.abs_path == q && f.processed)

/-- Count of filesystem paths not yet covered by a processed record. -/
def unprocCount (s : TravState) : Nat :=
  ((fsKeys s).filter (fun q => !(coveredB s.proj.files q))).length

def curDepth (s : TravState) : Nat :=
  (s.getNode s.current).node_path.length

/-- Secondary measure component: strictly drops on each pop and on each
descent while no flag flips. -/
def travPhase (s : TravState) : Nat :=
  if (s.getFileRec (s.getNode s.current).file_info).processed then
    (fsKeys s).length + 1 + curDepth s
  else (fsKeys s).length + 1 - curDepth s

/-- The combined lexicographic measure of one traversal iteration. -/
def travMeasure (s : TravState) : Nat :=
  unprocCount s * (2 * (fsKeys s).length + 2) + travPhase s

/-! Effects of `markProcessed` on the state components. -/

theorem markProcessed_nodes (s : TravState) (j : Nat) :
    (s.markProcessed j).nodes = s.nodes := rfl

theorem markProcessed_current (s : TravState) (j : Nat) :
    (s.markProcessed j).current = s.current := rfl

theorem markProcessed_fs (s : TravState) (j : Nat) :
    (s.markProcessed j).proj.fs = s.proj.fs := rfl

theorem markProcessed_report (s : TravState) (j : Nat) :
    (s.markProcessed j).report = s.report := rfl

theorem markProcessed_files_length (s : TravState) (j : Nat) :
    (s.markProcessed j).proj.files.length = s.proj.files.length := by
  simp [TravState.markProcessed]

theorem getNode_markProcessed (s : TravState) (j i : Nat) :
    (s.markProcessed j).getNode i = s.getNode i := rfl

theorem getFileRec_markProcessed_ne (s : TravState) {i j : Nat} (h : j ≠ i) :
    (s.markProcessed j).getFileRec i = s.getFileRec i :=
  getD_set_ne h _ _

theorem getFileRec_markProcessed_self (s : TravState) {j : Nat}
    (h : j < s.proj.files.length) :
    (s.markProcessed j).getFileRec j =
      { s.getFileRec j with processed := true } :=
  getD_set_self h _ _

theorem getFileRec_markProcessed_abs (s : TravState) (j i : Nat) :
    ((s.markProcessed j).getFileRec i).abs_path =
      (s.getFileRec i).abs_path := by
  by_cases hij : j = i
  · subst hij
    by_cases hj : j < s.proj.files.length
    · rw [getFileRec_markProcessed_self s hj]
    · have hge : s.proj.files.length ≤ j := le_of_not_lt hj
      unfold TravState.markProcessed TravState.getFileRec
      rw [List.getD_eq_default _ _ (by simpa using hge),
        List.getD_eq_default _ _ hge]
  · rw [getFileRec_markProcessed_ne s hij]

theorem pathsOf_set_processed (files : List FileInfo) (j : Nat) :
    pathsOf (files.set j { files.getD j default with processed := true }) =
      pathsOf files := by
  induction files generalizing j with
  | nil => rfl
  | cons f fs ih =>
    cases j with
    | zero => rfl
    | succ j2 =>
      show f.abs_path ::
          pathsOf (fs.set j2 { fs.getD j2 default with processed := true }) =
        f.abs_path :: pathsOf fs
      rw [ih j2]

theorem markProcessed_pathsOf (s : TravState) (j : Nat) :
    pathsOf (s.markProcessed j).proj.files = pathsOf s.proj.files :=
  pathsOf_set_processed s.proj.files j

/-! `coveredB` lemmas. -/

theorem coveredB_mono_set {files : List FileInfo} {j : Nat} {q : String}
    (h : coveredB files q = true) :
    coveredB (files.set j { files.getD j default with processed := true }) q
      = true := by
  induction files generalizing j with
  | nil => simp [coveredB] at h
  | cons f fs ih =>
    cases j with
    | zero =>
      simp only [coveredB, List.set_cons_zero, List.getD_cons_zero,
        List.any_cons, Bool.or_eq_true] at h ⊢
      rcases h with h | h
      · left
        simp only [Bool.and_eq_true] at h
        simp [h.1]
      · right
        exact h
    | succ j2 =>
      simp only [coveredB, List.set_cons_succ, List.getD_cons_succ,
        List.any_cons, Bool.or_eq_true] at h ⊢
      rcases h with h | h
      · left
        exact h
      · right
        exact ih h

theorem coveredB_target {files : List FileInfo} {j : Nat}
    (hj : j < files.length) :
    coveredB (files.set j { files.getD j default with processed := true })
      ((files.getD j default).abs_path) = true := by
  induction files generalizing j with
  | nil => simp at hj
  | cons f fs ih =>
    cases j with
    | zero =>
      simp [coveredB, List.set_cons_zero, List.getD_cons_zero]
    | succ j2 =>
      simp only [coveredB, List.set_cons_succ, List.getD_cons_succ,
        List.any_cons, Bool.or_eq_true]
      right
      exact ih (by simpa using hj)

theorem coveredB_append_unprocessed {files t : List FileInfo} {q : String}
    (ht : ∀ fi ∈ t, fi.processed = false) :
    coveredB (files ++ t) q = coveredB files q := by
  simp only [coveredB, List.any_append]
  have hz : t.any (fun f => f.abs_path == q && f.processed) = false := by
    rw [List.any_eq_false]
    intro f hf
    simp [ht f hf]
  simp [hz]

/-! Filter-counting lemmas for the measure. -/

theorem filter_length_mono {l : List α} {p q : α → Bool}
    (h : ∀ x ∈ l, q x = true → p x = true) :
    (l.filter q).length ≤ (l.filter p).length := by
  induction l with
  | nil => simp
  | cons x xs ih =>
    have hxs : ∀ y ∈ xs, q y = true → p y = true :=
      fun y hy => h y (List.mem_cons_of_mem x hy)
    rcases hq : q x with _ | _
    · rcases hp : p x with _ | _
      · simpa [List.filter_cons, hq, hp] using ih hxs
      · simp only [List.filter_cons, hq, hp]
        calc (xs.filter q).length ≤ (xs.filter p).length := ih hxs
          _ ≤ (xs.filter p).length + 1 := Nat.le_succ _
          _ = (x :: xs.filter p).length := by simp
    · have hp : p x = true := h x (List.mem_cons_self x xs) hq
      simpa [List.filter_cons, hq, hp] using ih hxs

theorem filter_length_lt {l : List α} {p q : α → Bool}
    (h : ∀ x ∈ l, q x = true → p x = true) {a : α} (ha : a ∈ l)
    (hpa : p a = true) (hqa : q a = false) :
    (l.filter q).length < (l.filter p).length := by
  induction l with
  | nil => simp at ha
  | cons x xs ih =>
    have hxs : ∀ y ∈ xs, q y = true → p y = true :=
      fun y hy => h y (List.mem_cons_of_mem x hy)
    rcases List.mem_cons.mp ha with rfl | ha2
    · simp only [List.filter_cons, hqa, hpa]
      calc (xs.filter q).length ≤ (xs.filter p).length :=
          filter_length_mono hxs
        _ < (a :: xs.filter p).length := by simp
    · rcases hq : q x with _ | _
      · rcases hp : p x with _ | _
        · simpa [List.filter_cons, hq, hp] using ih hxs ha2
        · simp only [List.filter_cons, hq, hp]
          calc (xs.filter q).length < (xs.filter p).length := ih hxs ha2
            _ ≤ (x :: xs.filter p).length := by simp [Nat.le_succ]
      · have hp : p x = true := h x (List.mem_cons_self x xs) hq
        simpa [List.filter_cons, hq, hp] using ih hxs ha2

theorem not_covered_of_nodup {files : List FileInfo} {j : Nat}
    (hj : j < files.length)
    (hproc : (files.getD j default).processed = false)
    (hnd : (pathsOf files).Nodup) :
    coveredB files ((files.getD j default).abs_path) = false := by
  rcases hc : coveredB files ((files.getD j default).abs_path) with _ | _
  · rfl
  · exfalso
    rw [coveredB, List.any_eq_true] at hc
    obtain ⟨f, hf, hpf⟩ := hc
    simp only [Bool.and_eq_true, beq_iff_eq] at hpf
    have hg : files.getD j default ∈ files := getD_mem hj default
    have heq : f = files.getD j default :=
      List.inj_on_of_nodup_map hnd hf hg hpf.1
    rw [heq] at hpf
    rw [hpf.2] at hproc
    exact Bool.true_eq_false.mp hproc

theorem fsExists_mem_keys {fs : FS} {q : String}
    (h : fsExists fs q = true) : q ∈ (fs.map (fun e => e.1)).dedup := by
  rw [fsExists, fsLookup, Option.isSome_map'] at h
  rcases hf : fs.find? (fun e => e.1 == q) with _ | e
  · rw [hf] at h
    simp at h
  · have hmem : e ∈ fs := List.mem_of_find?_eq_some hf
    have hpe := List.find?_some hf
    simp only [beq_iff_eq] at hpe
    refine List.mem_dedup.mpr ?_
    rw [← hpe]
    exact List.mem_map_of_mem (fun e => e.1) hmem

/-- Marking an in-range, unprocessed record strictly decreases the count of
uncovered filesystem paths. -/
theorem unprocCount_markProcessed_lt {s : TravState} {j : Nat}
    (hj : j < s.proj.files.length)
    (hproc : (s.getFileRec j).processed = false)
    (hnd : (pathsOf s.proj.files).Nodup)
    (hex : fsExists s.proj.fs (s.getFileRec j).abs_path = true) :
    unprocCount (s.markProcessed j) < unprocCount s := by
  have hkeys : fsKeys (s.markProcessed j) = fsKeys s := rfl
  unfold unprocCount
  rw [hkeys]
  apply filter_length_lt (a := (s.getFileRec j).abs_path)
  · intro x _ hx
    rcases hcb : coveredB s.proj.files x with _ | _
    · simp [hcb]
    · exfalso
      have := coveredB_mono_set (j := j) hcb
      have hmk : coveredB (s.markProcessed j).proj.files x = true := this
      rw [hmk] at hx
      simp at hx
  · exact fsExists_mem_keys hex
  · show (!(coveredB s.proj.files ((s.getFileRec j).abs_path))) = true
    have h2 : coveredB s.proj.files ((s.getFileRec j).abs_path) = false :=
      not_covered_of_nodup hj hproc hnd
    rw [h2]
    rfl
  · show (!(coveredB (s.markProcessed j).proj.files
      ((s.getFileRec j).abs_path))) = false
    have h3 : coveredB (s.markProcessed j).proj.files
        ((s.getFileRec j).abs_path) = true := coveredB_target hj
    rw [h3]
    rfl

/-! Effect of the child-materialization loop. -/

theorem createGo_spec {nidx : Nat} {modname : String} :
    ∀ {incs : List String} {ppath : List Nat} {p : Project}
      {nodes : List Node} {acc : List Nat},
    (createNodeChildrenGo nidx ppath modname incs p nodes acc).1.root_path
        = p.root_path ∧
      (createNodeChildrenGo nidx ppath modname incs p nodes acc).1.fs = p.fs ∧
      (createNodeChildrenGo nidx ppath modname incs p nodes acc).1.modules
        = p.modules ∧
      (∃ t, (createNodeChildrenGo nidx ppath modname incs p nodes acc).1.files
          = p.files ++ t ∧
        ∀ fi ∈ t, fi.processed = false ∧ fsExists p.fs fi.abs_path = true) ∧
      ((pathsOf p.files).Nodup →
        (pathsOf
          (createNodeChildrenGo nidx ppath modname incs p nodes acc).1.files
          ).Nodup) ∧
      (∃ nt, (createNodeChildrenGo nidx ppath modname incs p nodes acc).2.1
          = nodes ++ nt ∧
        ∀ nd ∈ nt, nd.prev = some nidx ∧ nd.children = [] ∧
          nd.node_path = ppath ++ [nd.file_info] ∧
          nd.file_info <
            (createNodeChildrenGo nidx ppath modname incs p nodes acc
              ).1.files.length) ∧
      (∀ c ∈ (createNodeChildrenGo nidx ppath modname incs p nodes acc).2.2,
        c ∈ acc ∨
          (nodes.length ≤ c ∧
            c < (createNodeChildrenGo nidx ppath modname incs p nodes acc
              ).2.1.length ∧
            ((createNodeChildrenGo nidx ppath modname incs p nodes acc
              ).2.1.getD c default).prev = some nidx)) := by
  intro incs
  induction incs with
  | nil =>
    intro ppath p nodes acc
    refine ⟨rfl, rfl, rfl, ⟨[], by simp [createNodeChildrenGo], by simp⟩,
      fun h => by simpa [createNodeChildrenGo] using h,
      ⟨[], by simp [createNodeChildrenGo], by simp⟩, ?_⟩
    intro c hc
    exact Or.inl hc
  | cons inc rest ih =>
    intro ppath p nodes acc
    rcases hgf : Project.get_file p inc modname with ⟨rg, p2⟩
    obtain ⟨hrp, hfs, hmods, herr, hok⟩ := get_file_shape hgf
    cases rg with
    | error e =>
      have hp2 : p = p2 := (herr ⟨e, rfl⟩).symm
      subst hp2
      have hred : createNodeChildrenGo nidx ppath modname (inc :: rest) p nodes
          acc = createNodeChildrenGo nidx ppath modname rest p nodes acc := by
        simp only [createNodeChildrenGo, hgf]
      rw [hred]
      exact ih
    | ok fidx =>
      have hred : createNodeChildrenGo nidx ppath modname (inc :: rest) p nodes
          acc = createNodeChildrenGo nidx ppath modname rest p2
            (nodes ++ [childNode fidx nidx ppath]) (acc ++ [nodes.length]) := by
        simp only [createNodeChildrenGo, hgf]
      rw [hred]
      obtain ⟨ihrp, ihfs, ihmods, ⟨t2, iht2, iht2p⟩, ihnd, ⟨nt2, ihnt2, ihnt2p⟩,
        ihacc⟩ := @ih ppath p2 (nodes ++ [childNode fidx nidx ppath])
          (acc ++ [nodes.length])
      have hfidx : fidx < p2.files.length := by
        rcases hok fidx rfl with ⟨hfl, hlt⟩ | ⟨fi, hfl, hlen, _, _⟩
        · rw [hfl]
          exact hlt
        · rw [hfl, hlen]
          simp
      have hfiles2 : ∃ t1, p2.files = p.files ++ t1 ∧
          ∀ fi ∈ t1, fi.processed = false ∧
            fsExists p.fs fi.abs_path = true := by
        rcases hok fidx rfl with ⟨hfl, _⟩ | ⟨fi, hfl, _, hcr, _⟩
        · exact ⟨[], by simp [hfl], by simp⟩
        · obtain ⟨hpath, hproc, hex⟩ := create_ok_facts hcr
          refine ⟨[fi], hfl, ?_⟩
          intro g hg
          rcases List.mem_singleton.mp hg with rfl
          exact ⟨hproc, hex⟩
      obtain ⟨t1, ht1, ht1p⟩ := hfiles2
      refine ⟨by rw [ihrp, hrp], by rw [ihfs, hfs], by rw [ihmods, hmods],
        ?_, ?_, ?_, ?_⟩
      · refine ⟨t1 ++ t2, by rw [iht2, ht1, List.append_assoc], ?_⟩
        intro fi hfi
        rcases List.mem_append.mp hfi with hm | hm
        · exact ht1p fi hm
        · obtain ⟨h1, h2⟩ := iht2p fi hm
          rw [hfs] at h2
          exact ⟨h1, h2⟩
      · intro hnd
        apply ihnd
        rw [ht1]
        rcases hok fidx rfl with ⟨hfl, _⟩ | ⟨fi, hfl, _, _, hnp⟩
        · have ht1e : t1 = [] := by
            have h12 := ht1 ▸ hfl
            simpa using h12.symm
          rw [ht1e]
          simpa using hnd
        · have ht1fi : t1 = [fi] := by
            have h12 := ht1 ▸ hfl
            simpa using h12
          rw [ht1fi]
          rw [pathsOf, List.map_append]
          apply List.Nodup.append
          · exact hnd
          · simp [pathsOf]
          · intro a ha hb
            simp only [pathsOf, List.map_cons, List.map_nil,
              List.mem_singleton] at hb
            subst hb
            have hall := findIdxQ_eq_none hnp
            have hmemg : ∃ g ∈ p.files, g.abs_path = fi.abs_path := by
              simp only [pathsOf, List.mem_map] at ha
              obtain ⟨g, hg, hga⟩ := ha
              exact ⟨g, hg, hga⟩
            obtain ⟨g, hg, hga⟩ := hmemg
            have hfg := hall g hg
            rw [hga] at hfg
            simp at hfg
      · refine ⟨childNode fidx nidx ppath :: nt2, by rw [ihnt2]; simp, ?_⟩
        intro nd hnd
        rcases List.mem_cons.mp hnd with rfl | hm
        · refine ⟨rfl, rfl, rfl, ?_⟩
          have hlen2 : p2.files.length ≤ (createNodeChildrenGo nidx ppath
              modname rest p2 (nodes ++ [childNode fidx nidx ppath])
              (acc ++ [nodes.length])).1.files.length := by
            rw [iht2]
            simp
          exact lt_of_lt_of_le hfidx hlen2
        · exact ihnt2p nd hm
      · intro c hc
        rcases ihacc c hc with hm | ⟨hge, hlt, hprev⟩
        · rcases List.mem_append.mp hm with hm2 | hm2
          · exact Or.inl hm2
          · right
            rcases List.mem_singleton.mp hm2 with rfl
            refine ⟨le_refl _, ?_, ?_⟩
            · rw [ihnt2]
              simp
            · rw [ihnt2, List.append_assoc,
                List.getD_append_right _ _ _ _ (le_refl nodes.length)]
              simp [childNode]
        · right
          refine ⟨?_, hlt, hprev⟩
          calc nodes.length
              ≤ (nodes ++ [childNode fidx nidx ppath]).length := by simp
            _ ≤ c := hge

/-- Everything the step analysis needs about materializing the current node's
children: well-formedness is preserved, the current pointer, report, current
node path/file and all existing records are unchanged, and the measure and
covered-path set do not move. -/
theorem cnc_spec {s : TravState} (hwf : WF s) :
    WF (Node.create_node_children s s.current) ∧
      (Node.create_node_children s s.current).current = s.current ∧
      (Node.create_node_children s s.current).report = s.report ∧
      (Node.create_node_children s s.current).proj.fs = s.proj.fs ∧
      ((Node.create_node_children s s.current).getNode s.current).node_path
        = (s.getNode s.current).node_path ∧
      ((Node.create_node_children s s.current).getNode s.current).file_info
        = (s.getNode s.current).file_info ∧
      (∀ j, j < s.proj.files.length →
        (Node.create_node_children s s.current).getFileRec j
          = s.getFileRec j) ∧
      s.proj.files.length ≤
        (Node.create_node_children s s.current).proj.files.length ∧
      (∀ q, coveredB (Node.create_node_children s s.current).proj.files q
        = coveredB s.proj.files q) ∧
      travMeasure (Node.create_node_children s s.current) = travMeasure s := by
  obtain ⟨hcur, hnodes, hprev, hchild, hcnd, hfex, hpnd⟩ := hwf
  have hspec := @createGo_spec s.current
    (s.getFileRec (s.getNode s.current).file_info).module
    (s.getFileRec (s.getNode s.current).file_info).includes
    (s.getNode s.current).node_path s.proj s.nodes []
  rcases hr : createNodeChildrenGo s.current (s.getNode s.current).node_path
      (s.getFileRec (s.getNode s.current).file_info).module
      (s.getFileRec (s.getNode s.current).file_info).includes
      s.proj s.nodes [] with ⟨p1, nrest⟩
  rcases nrest with ⟨nodes1, kids⟩
  rw [hr] at hspec
  dsimp only at hspec
  obtain ⟨hrp, hfs, hmods, ⟨t, ht, htp⟩, hndp, ⟨nt, hnt, hntp⟩, hacc⟩ := hspec
  have hs1 : Node.create_node_children s s.current =
      { s with proj := p1, nodes := setChildren nodes1 s.current kids } := by
    simp only [Node.create_node_children]
    rw [hr]
  have hnok : nodeOk s (s.getNode s.current) :=
    hnodes _ (getD_mem hcur default)
  have hfilen : p1.files.length = s.proj.files.length + t.length := by
    rw [ht]
    simp
  have hnodes1len : nodes1.length = s.nodes.length + nt.length := by
    rw [hnt]
    simp
  have hcu1 : s.current < nodes1.length := by
    omega
  have hX : nodes1.getD s.current default = s.getNode s.current := by
    rw [hnt]
    exact getD_append_left hcur default
  have hget_cu : (Node.create_node_children s s.current).getNode s.current =
      { s.getNode s.current with children := kids } := by
    rw [hs1]
    show (setChildren nodes1 s.current kids).getD s.current default = _
    unfold setChildren
    rw [getD_set_self hcu1, hX]
  have hget_ne : ∀ i, i ≠ s.current →
      (Node.create_node_children s s.current).getNode i =
        nodes1.getD i default := by
    intro i hne
    rw [hs1]
    show (setChildren nodes1 s.current kids).getD i default = _
    unfold setChildren
    exact getD_set_ne (fun hh => hne (hh.symm)) _ _
  have hget_old : ∀ i, i < s.nodes.length → i ≠ s.current →
      (Node.create_node_children s s.current).getNode i = s.getNode i := by
    intro i hi hne
    rw [hget_ne i hne, hnt, getD_append_left hi]
    rfl
  have hget_new : ∀ i, s.nodes.length ≤ i → i < nodes1.length →
      (Node.create_node_children s s.current).getNode i =
        nt.getD (i - s.nodes.length) default ∧
        nt.getD (i - s.nodes.length) default ∈ nt := by
    intro i hge hlt
    have hne : i ≠ s.current := by omega
    constructor
    · rw [hget_ne i hne, hnt, List.getD_append_right _ _ _ _ hge]
    · apply getD_mem
      rw [hnt] at hlt
      simp only [List.length_append] at hlt
      omega
  have hfields : ∀ i,
      ((Node.create_node_children s s.current).getNode i).prev =
          (nodes1.getD i default).prev ∧
        ((Node.create_node_children s s.current).getNode i).node_path =
          (nodes1.getD i default).node_path ∧
        ((Node.create_node_children s s.current).getNode i).file_info =
          (nodes1.getD i default).file_info := by
    intro i
    by_cases hic : i = s.current
    · subst hic
      rw [hget_cu, hX]
      exact ⟨rfl, rfl, rfl⟩
    · rw [hget_ne i hic]
      exact ⟨rfl, rfl, rfl⟩
  have hfile_pres : ∀ j, j < s.proj.files.length →
      (Node.create_node_children s s.current).getFileRec j =
        s.getFileRec j := by
    intro j hj
    rw [hs1]
    show p1.files.getD j default = s.proj.files.getD j default
    rw [ht]
    exact getD_append_left hj default
  have hlen1 : ((Node.create_node_children s s.current)).nodes.length =
      nodes1.length := by
    rw [hs1]
    show (setChildren nodes1 s.current kids).length = _
    unfold setChildren
    simp
  refine ⟨?_, by rw [hs1], by rw [hs1], by rw [hs1]; exact hfs, ?_, ?_,
    hfile_pres, ?_, ?_, ?_⟩
  · refine ⟨?_, ?_, ?_, ?_, ?_, ?_, ?_⟩
    · rw [hlen1]
      exact hcu1
    · intro nd hnd
      have hmem : nd ∈ nodes1 ∨
          nd = { nodes1.getD s.current default with children := kids } := by
        rw [hs1] at hnd
        exact List.mem_or_eq_of_mem_set hnd
      have hnode_ok_of_old : ∀ m ∈ s.nodes, nodeOk
          (Node.create_node_children s s.current) m := by
        intro m hm
        obtain ⟨h1, h2, h3, h4⟩ := hnodes m hm
        refine ⟨?_, h2, h3, ?_⟩
        · rw [hs1]
          show m.file_info < p1.files.length
          omega
        · intro j hj
          have := h4 j hj
          rw [hs1]
          show j < p1.files.length
          omega
      rcases hmem with hm | hm
      · rw [hnt] at hm
        rcases List.mem_append.mp hm with hm2 | hm2
        · exact hnode_ok_of_old nd hm2
        · obtain ⟨hp1, hc1, hnp1, hfi1⟩ := hntp nd hm2
          refine ⟨?_, ?_, ?_, ?_⟩
          · rw [hs1]
            exact hfi1
          · rw [hnp1]
            simp
          · rw [hnp1]
            simp
          · intro j hj
            rw [hnp1] at hj
            rcases List.mem_append.mp hj with hj2 | hj2
            · have := hnok.2.2.2 j hj2
              rw [hs1]
              show j < p1.files.length
              omega
            · rcases List.mem_singleton.mp hj2 with rfl
              rw [hs1]
              exact hfi1
      · subst hm
        rw [hX]
        obtain ⟨h1, h2, h3, h4⟩ := hnok
        refine ⟨?_, h2, h3, ?_⟩
        · rw [hs1]
          show (s.getNode s.current).file_info < p1.files.length
          omega
        · intro j hj
          have := h4 j hj
          rw [hs1]
          show j < p1.files.length
          omega
    · intro k hk
      rw [hlen1] at hk
      unfold prevOk
      obtain ⟨hfp, hfnp, hffi⟩ := hfields k
      by_cases hkold : k < s.nodes.length
      · have hpo := hprev k hkold
        unfold prevOk at hpo
        have hraw : nodes1.getD k default = s.getNode k := by
          rw [hnt]
          exact getD_append_left hkold default
        rw [hfp, hfnp, hffi, hraw]
        rcases hpr : (s.getNode k).prev with _ | pr
        · rw [hpr] at hpo
          exact hpo
        · rw [hpr] at hpo
          obtain ⟨hplt, hpeq⟩ := hpo
          refine ⟨hplt, ?_⟩
          obtain ⟨_, hfnp2, _⟩ := hfields pr
          have hraw2 : nodes1.getD pr default = s.getNode pr := by
            rw [hnt]
            exact getD_append_left (by omega) default
          rw [hfnp2, hraw2]
          exact hpeq
      · have hge : s.nodes.length ≤ k := le_of_not_lt hkold
        have hraw : nodes1.getD k default =
            nt.getD (k - s.nodes.length) default := by
          rw [hnt]
          exact List.getD_append_right _ _ _ _ hge
        have hmem : nt.getD (k - s.nodes.length) default ∈ nt := by
          apply getD_mem
          omega
        obtain ⟨hp1, hc1, hnp1, hfi1⟩ := hntp _ hmem
        rw [hfp, hfnp, hffi, hraw, hp1]
        refine ⟨by omega, ?_⟩
        obtain ⟨_, hfnp2, _⟩ := hfields s.current
        rw [hnp1, hfnp2, hX]
    · intro k hk
      rw [hlen1] at hk
      intro c hc
      by_cases hkc : k = s.current
      · subst hkc
        rw [hget_cu] at hc
        rcases hacc c hc with hcm | ⟨hge, hlt, hpc⟩
        · simp at hcm
        · refine ⟨by rw [hlen1]; exact hlt, ?_⟩
          have hne : c ≠ s.current := by omega
          obtain ⟨hfp, _, _⟩ := hfields c
          rw [hget_ne c hne]
          exact hpc
      · by_cases hkold : k < s.nodes.length
        · rw [hget_old k hkold hkc] at hc
          obtain ⟨hclt, hcp⟩ := hchild k hkold c hc
          refine ⟨by rw [hlen1]; omega, ?_⟩
          obtain ⟨hfp, _, _⟩ := hfields c
          have hraw : nodes1.getD c default = s.getNode c := by
            rw [hnt]
            exact getD_append_left hclt default
          rw [hfp, hraw]
          exact hcp
        · have hge : s.nodes.length ≤ k := le_of_not_lt hkold
          obtain ⟨hgn, hmem⟩ := hget_new k hge hk
          obtain ⟨_, hc1, _, _⟩ := hntp _ hmem
          rw [hgn, hc1] at hc
          simp at hc
    · unfold curPathsNodup
      obtain ⟨_, hfnp, _⟩ := hfields s.current
      have hcu2 : (Node.create_node_children s s.current).current
          = s.current := by
        rw [hs1]
      rw [hcu2, hfnp, hX]
      have hmapeq : (s.getNode s.current).node_path.map
          (fun j => ((Node.create_node_children s s.current).getFileRec j
            ).abs_path) =
          (s.getNode s.current).node_path.map
            (fun j => (s.getFileRec j).abs_path) := by
        apply List.map_congr_left
        intro j hj
        rw [hfile_pres j (hnok.2.2.2 j hj)]
      rw [hmapeq]
      exact hcnd
    · intro f hf
      rw [hs1] at hf
      rw [hs1]
      show fsExists p1.fs f.abs_path = true
      rw [hfs]
      rw [ht] at hf
      rcases List.mem_append.mp hf with hm | hm
      · exact hfex f hm
      · exact (htp f hm).2
    · rw [hs1]
      show (pathsOf p1.files).Nodup
      exact hndp hpnd
  · obtain ⟨_, hfnp, _⟩ := hfields s.current
    rw [hfnp, hX]
  · obtain ⟨_, _, hffi⟩ := hfields s.current
    rw [hffi, hX]
  · rw [hs1]
    show s.proj.files.length ≤ p1.files.length
    omega
  · intro q
    rw [hs1]
    show coveredB p1.files q = coveredB s.proj.files q
    rw [ht]
    exact coveredB_append_unprocessed (fun fi hfi => (htp fi hfi).1)
  · have hkeys : fsKeys (Node.create_node_children s s.current) = fsKeys s := by
      unfold fsKeys
      rw [hs1]
      show ((p1.fs.map (fun e => e.1)).dedup) = _
      rw [hfs]
    have hcov : ∀ q, coveredB
        (Node.create_node_children s s.current).proj.files q
          = coveredB s.proj.files q := by
      intro q
      rw [hs1]
      show coveredB p1.files q = coveredB s.proj.files q
      rw [ht]
      exact coveredB_append_unprocessed (fun fi hfi => (htp fi hfi).1)
    have huc : unprocCount (Node.create_node_children s s.current) =
        unprocCount s := by
      unfold unprocCount
      rw [hkeys]
      congr 1
      apply List.filter_congr
      intro q _
      rw [hcov q]
    have hdep : curDepth (Node.create_node_children s s.current) =
        curDepth s := by
      unfold curDepth
      have hcu2 : (Node.create_node_children s s.current).current
          = s.current := by
        rw [hs1]
      rw [hcu2]
      obtain ⟨_, hfnp, _⟩ := hfields s.current
      rw [hfnp, hX]
    have hproc : ((Node.create_node_children s s.current).getFileRec
        ((Node.create_node_children s s.current).getNode
          ((Node.create_node_children s s.current).current)).file_info
        ).processed =
        ((s.getFileRec (s.getNode s.current).file_info)).processed := by
      have hcu2 : (Node.create_node_children s s.current).current
          = s.current := by
        rw [hs1]
      rw [hcu2]
      obtain ⟨_, _, hffi⟩ := hfields s.current
      rw [hffi, hX, hfile_pres _ hnok.1]
    unfold travMeasure travPhase
    rw [hkeys, huc, hdep, hproc]

/-! Small lemmas feeding the step analysis. -/

theorem lex_lt {a b pa pb C : Nat} (hab : a < b) (hpa : pa < C) :
    a * C + pa < b * C + pb := by
  have h1 : a * C + pa < (a + 1) * C := by
    have : (a + 1) * C = a * C + C := by ring
    omega
  have h2 : (a + 1) * C ≤ b * C := Nat.mul_le_mul_right C hab
  omega

/-- The current node's depth is bounded by the number of distinct filesystem
paths: its `node_path` records are pairwise-distinct existing paths. -/
theorem depth_le_keys {s : TravState} (hwf : WF s) :
    curDepth s ≤ (fsKeys s).length := by
  obtain ⟨hcur, hnodes, _, _, hcnd, hfex, _⟩ := hwf
  have hnok : nodeOk s (s.getNode s.current) :=
    hnodes _ (getD_mem hcur default)
  have hsub : ∀ x ∈ (s.getNode s.current).node_path.map
      (fun j => (s.getFileRec j).abs_path), x ∈ fsKeys s := by
    intro x hx
    rw [List.mem_map] at hx
    obtain ⟨j, hj, hx2⟩ := hx
    have hjlt := hnok.2.2.2 j hj
    have hmem : s.getFileRec j ∈ s.proj.files := getD_mem hjlt default
    have := hfex _ hmem
    subst hx2
    exact fsExists_mem_keys this
  have hsp := List.subperm_of_subset hcnd hsub
  have hle := hsp.length_le
  simpa [curDepth] using hle

theorem travPhase_lt {s : TravState} (hwf : WF s) :
    travPhase s < 2 * (fsKeys s).length + 2 := by
  have hd := depth_le_keys hwf
  unfold travPhase
  split <;> omega

/-- Marking any in-range record preserves well-formedness. -/
theorem mark_wf {s : TravState} {j : Nat} (hwf : WF s) :
    WF (s.markProcessed j) := by
  obtain ⟨hcur, hnodes, hprev, hchild, hcnd, hfex, hpnd⟩ := hwf
  have hlen : (s.markProcessed j).proj.files.length = s.proj.files.length :=
    markProcessed_files_length s j
  refine ⟨?_, ?_, ?_, ?_, ?_, ?_, ?_⟩
  · exact hcur
  · intro nd hnd
    rw [markProcessed_nodes] at hnd
    obtain ⟨h1, h2, h3, h4⟩ := hnodes nd hnd
    exact ⟨by omega, h2, h3, fun v hv => by have := h4 v hv; omega⟩
  · intro k hk
    rw [markProcessed_nodes] at hk
    have := hprev k hk
    unfold prevOk at this ⊢
    exact this
  · intro k hk
    rw [markProcessed_nodes] at hk
    intro c hc
    have := hchild k hk c hc
    exact this
  · unfold curPathsNodup at hcnd ⊢
    have hmap : ((s.markProcessed j).getNode
        (s.markProcessed j).current).node_path.map
        (fun v => ((s.markProcessed j).getFileRec v).abs_path) =
        (s.getNode s.current).node_path.map
          (fun v => (s.getFileRec v).abs_path) := by
      apply List.map_congr_left
      intro v _
      exact getFileRec_markProcessed_abs s j v
    rw [hmap]
    exact hcnd
  · intro f hf
    have hf2 : f ∈ s.proj.files.set j
        { s.proj.files.getD j default with processed := true } := hf
    rcases List.mem_or_eq_of_mem_set hf2 with hm | hm
    · exact hfex f hm
    · by_cases hj : j < s.proj.files.length
      · subst hm
        show fsExists s.proj.fs (s.proj.files.getD j default).abs_path = true
        exact hfex _ (getD_mem hj default)
      · have hmem : f ∈ s.proj.files := by
          rw [List.set_eq_of_length_le (le_of_not_lt hj)] at hf2
          exact hf2
        exact hfex f hmem
  · have := markProcessed_pathsOf s j
    rw [this]
    exact hpnd

/-- Flipping an unprocessed in-range record strictly decreases the measure. -/
theorem mark_measure_lt {s : TravState} {j : Nat} (hwf : WF s)
    (hj : j < s.proj.files.length)
    (hproc : (s.getFileRec j).processed = false) :
    travMeasure (s.markProcessed j) < travMeasure s := by
  have hfex := hwf.2.2.2.2.2.1
  have hpnd := hwf.2.2.2.2.2.2
  have hmem : s.getFileRec j ∈ s.proj.files := getD_mem hj default
  have hu := unprocCount_markProcessed_lt hj hproc hpnd (hfex _ hmem)
  have hwf2 := mark_wf (j := j) hwf
  have hp2 := travPhase_lt hwf2
  have hkeys : fsKeys (s.markProcessed j) = fsKeys s := rfl
  unfold travMeasure
  rw [hkeys] at hp2 ⊢
  exact lex_lt hu hp2

/-- `is_recursive` is false exactly when the path names are distinct. -/
theorem is_recursive_false_iff {s : TravState} {n : Node} :
    (Node.is_recursive s n).1 = false ↔
      (n.node_path.map (fun j => (s.getFileRec j).abs_path)).Nodup := by
  unfold Node.is_recursive
  rcases hau : allUnique (n.node_path.map (fun j => (s.getFileRec j).abs_path))
    with _ | _
  · simp only [hau, Bool.false_eq_true, if_false]
    constructor
    · intro h
      simp at h
    · intro h
      exact absurd (allUnique_iff_nodup.mpr h) (by simp [hau])
  · simp only [hau, if_true]
    constructor
    · intro _
      exact allUnique_iff_nodup.mp hau
    · intro _
      trivial

/-- One child-scanning step (`stepFind`), from an unprocessed current node in
a well-formed state: well-formedness is preserved, the measure strictly
drops, covered paths stay covered, and a recorded terminus was uncovered
before the step and covered after it. -/
theorem stepFind_spec {s1 s2 : TravState} {ev : Option String} (hwf : WF s1)
    (hproc1 : (s1.getFileRec (s1.getNode s1.current).file_info).processed
      = false)
    (hstep : stepFind s1 = StepOut.cont s2 ev) :
    WF s2 ∧ travMeasure s2 < travMeasure s1 ∧
      (∀ q, coveredB s1.proj.files q = true →
        coveredB s2.proj.files q = true) ∧
      (∀ q, ev = some q →
        coveredB s1.proj.files q = false ∧
          coveredB s2.proj.files q = true) := by
  have hcur := hwf.1
  have hnok : nodeOk s1 (s1.getNode s1.current) :=
    hwf.2.1 _ (getD_mem hcur default)
  unfold stepFind at hstep
  rcases hfind : s1.curNode.children.find?
      (fun c => !(s1.getFileRec (s1.getNode c).file_info).processed)
    with _ | c
  · rw [hfind] at hstep
    simp only [StepOut.cont.injEq] at hstep
    obtain ⟨hs2, hev⟩ := hstep
    subst hs2
    subst hev
    have hj : s1.curNode.file_info < s1.proj.files.length := hnok.1
    refine ⟨mark_wf hwf, mark_measure_lt hwf hj hproc1, ?_, ?_⟩
    · intro q hq
      exact coveredB_mono_set hq
    · intro q hq
      simp at hq
  · rw [hfind] at hstep
    dsimp only at hstep
    have hcmem : c ∈ s1.curNode.children := List.mem_of_find?_eq_some hfind
    have hcpred := List.find?_some hfind
    have hcproc : (s1.getFileRec (s1.getNode c).file_info).processed
        = false := by
      simpa using hcpred
    obtain ⟨hclt, hcprev⟩ := hwf.2.2.2.1 s1.current hcur c hcmem
    have hcnok : nodeOk s1 (s1.getNode c) := hwf.2.1 _ (getD_mem hclt default)
    have hcprevOk := hwf.2.2.1 c hclt
    unfold prevOk at hcprevOk
    rw [hcprev] at hcprevOk
    obtain ⟨hplt, hpeq⟩ := hcprevOk
    rcases hrec : (Node.is_recursive s1 (s1.getNode c)).1 with _ | _
    · -- not recursive: descend
      rw [hrec] at hstep
      simp only [Bool.false_eq_true, if_false, StepOut.cont.injEq] at hstep
      obtain ⟨hs2, hev⟩ := hstep
      subst hs2
      subst hev
      have hd1 := depth_le_keys hwf
      refine ⟨?_, ?_, ?_, ?_⟩
      · refine ⟨hclt, hwf.2.1, hwf.2.2.1, hwf.2.2.2.1, ?_,
          hwf.2.2.2.2.2.1, hwf.2.2.2.2.2.2⟩
        unfold curPathsNodup
        exact is_recursive_false_iff.mp hrec
      · have hkeq : fsKeys { s1 with current := c } = fsKeys s1 := rfl
        have hueq : unprocCount { s1 with current := c } = unprocCount s1 :=
          rfl
        have hd2 : curDepth { s1 with current := c } = curDepth s1 + 1 := by
          unfold curDepth
          show (s1.getNode c).node_path.length = _
          rw [hpeq]
          simp [curDepth]
        have hph1 : travPhase s1 =
            (fsKeys s1).length + 1 - curDepth s1 := by
          unfold travPhase
          rw [hproc1]
          simp
        have hph2 : travPhase { s1 with current := c } =
            (fsKeys s1).length + 1 - (curDepth s1 + 1) := by
          unfold travPhase
          have hc2 : ({ s1 with current := c } : TravState).getFileRec
              (({ s1 with current := c } : TravState).getNode c).file_info
                = s1.getFileRec (s1.getNode c).file_info := rfl
          rw [show (({ s1 with current := c } : TravState).getFileRec
            (({ s1 with current := c } : TravState).getNode
              ({ s1 with current := c } : TravState).current).file_info
            ).processed = false from hcproc]
          rw [hkeq, hd2]
          simp
        unfold travMeasure
        rw [hkeq, hueq, hph1, hph2]
        have hdepth_ne : curDepth s1 ≥ 1 := by
          have := hnok.2.1
          unfold curDepth
          rcases hnp : (s1.getNode s1.current).node_path with _ | ⟨a, b⟩
          · exact absurd hnp this
          · simp
        omega
      · intro q hq
        exact hq
      · intro q hq
        simp at hq
    · -- recursive: record the terminus
      rw [hrec] at hstep
      rw [if_pos rfl] at hstep
      simp only [stepRecord, StepOut.cont.injEq] at hstep
      obtain ⟨hs2, hev⟩ := hstep
      have hj : (s1.getNode c).file_info < s1.proj.files.length := hcnok.1
      have hwfm : WF (s1.markProcessed (s1.getNode c).file_info) := mark_wf hwf
      have hmlt : travMeasure (s1.markProcessed (s1.getNode c).file_info) <
          travMeasure s1 := mark_measure_lt hwf hj hcproc
      constructor
      · rw [← hs2] at *
        exact hwfm
      refine ⟨?_, ?_, ?_⟩
      · rw [← hs2]
        exact hmlt
      · intro q hq
        rw [← hs2]
        show coveredB (s1.markProcessed (s1.getNode c).file_info).proj.files q
          = true
        exact coveredB_mono_set hq
      · intro q hq
        rw [← hev] at hq
        simp only [Option.some.injEq] at hq
        subst hq
        rw [getFileRec_markProcessed_abs]
        constructor
        · exact not_covered_of_nodup hj hcproc hwf.2.2.2.2.2.2
        · rw [← hs2]
          show coveredB
            (s1.markProcessed (s1.getNode c).file_info).proj.files
            ((s1.getFileRec (s1.getNode c).file_info).abs_path) = true
          exact coveredB_target hj

/-- One full loop iteration from a well-formed state: on `cont`,
well-formedness is preserved, the measure strictly decreases, covered paths
stay covered, and a recorded terminus flips from uncovered to covered. -/
theorem traverseStep_cont_spec {s s2 : TravState} {ev : Option String}
    (hwf : WF s) (hstep : traverseStep s = StepOut.cont s2 ev) :
    WF s2 ∧ travMeasure s2 < travMeasure s ∧
      (∀ q, coveredB s.proj.files q = true →
        coveredB s2.proj.files q = true) ∧
      (∀ q, ev = some q →
        coveredB s.proj.files q = false ∧
          coveredB s2.proj.files q = true) := by
  have hcur := hwf.1
  have hnok : nodeOk s (s.getNode s.current) :=
    hwf.2.1 _ (getD_mem hcur default)
  unfold traverseStep at hstep
  rcases hproc : s.curFile.processed with _ | _
  · -- current file not processed
    rw [hproc] at hstep
    simp only [Bool.false_eq_true, if_false] at hstep
    rcases hleaf : (s.curNode.children.isEmpty && s.curFile.includes.isEmpty)
        with _ | _
    · -- not the leaf shortcut
      rw [hleaf] at hstep
      simp only [Bool.false_eq_true, if_false] at hstep
      have hfp1 : (s.getFileRec (s.getNode s.current).file_info).processed
          = false := hproc
      rcases hce : s.curNode.children.isEmpty with _ | _
      · -- children already materialized: scan them on `s`
        rw [hce] at hstep
        simp only [Bool.false_eq_true, if_false] at hstep
        exact stepFind_spec hwf hfp1 hstep
      · -- materialize children, then scan on the new state
        rw [hce] at hstep
        rw [if_pos rfl] at hstep
        obtain ⟨hwf1, hcur1, hrep1, hfs1, hnp1, hfi1, hfrec1, hflen1, hcov1,
          hmeas1⟩ := cnc_spec hwf
        have hfp2 : ((Node.create_node_children s s.current).getFileRec
            ((Node.create_node_children s s.current).getNode
              (Node.create_node_children s s.current).current).file_info
            ).processed = false := by
          rw [hcur1, hfi1, hfrec1 _ hnok.1]
          exact hfp1
        obtain ⟨hwf2, hlt2, hmono2, hev2⟩ := stepFind_spec hwf1 hfp2 hstep
        refine ⟨hwf2, by omega, ?_, ?_⟩
        · intro q hq
          apply hmono2
          rw [hcov1]
          exact hq
        · intro q hq
          obtain ⟨hq1, hq2⟩ := hev2 q hq
          rw [hcov1] at hq1
          exact ⟨hq1, hq2⟩
    · -- leaf: zero includes and no children yet, mark processed
      rw [hleaf] at hstep
      rw [if_pos rfl] at hstep
      simp only [StepOut.cont.injEq] at hstep
      obtain ⟨hs2, hev⟩ := hstep
      subst hs2
      subst hev
      have hfp1 : (s.getFileRec (s.getNode s.current).file_info).processed
          = false := hproc
      refine ⟨mark_wf hwf, mark_measure_lt hwf hnok.1 hfp1, ?_, ?_⟩
      · intro q hq
        exact coveredB_mono_set hq
      · intro q hq
        simp at hq
  · -- current file processed: pop to the parent
    rw [hproc] at hstep
    rw [if_pos rfl] at hstep
    unfold stepBack at hstep
    rcases hpr : s.curNode.prev with _ | pr
    · rw [hpr] at hstep
      simp at hstep
    · rw [hpr] at hstep
      simp only [StepOut.cont.injEq] at hstep
      obtain ⟨hs2, hev⟩ := hstep
      subst hs2
      subst hev
      have hpo := hwf.2.2.1 s.current hcur
      unfold prevOk at hpo
      have hpr2 : (s.getNode s.current).prev = some pr := hpr
      rw [hpr2] at hpo
      obtain ⟨hprlt, hpreq⟩ := hpo
      have hfp1 : (s.getFileRec (s.getNode s.current).file_info).processed
          = true := hproc
      refine ⟨?_, ?_, ?_, ?_⟩
      · refine ⟨show pr < s.nodes.length by omega, hwf.2.1, hwf.2.2.1,
          hwf.2.2.2.1, ?_, hwf.2.2.2.2.2.1, hwf.2.2.2.2.2.2⟩
        unfold curPathsNodup
        have hcnd := hwf.2.2.2.2.1
        unfold curPathsNodup at hcnd
        rw [hpreq] at hcnd
        rw [List.map_append] at hcnd
        show ((s.getNode pr).node_path.map
          (fun j => (s.getFileRec j).abs_path)).Nodup
        exact (List.nodup_append.mp hcnd).1
      · have hkeq : fsKeys { s with current := pr } = fsKeys s := rfl
        have hueq : unprocCount { s with current := pr } = unprocCount s := rfl
        have hd1 : curDepth s = curDepth { s with current := pr } + 1 := by
          unfold curDepth
          show (s.getNode s.current).node_path.length = _
          rw [hpreq]
          simp
          rfl
        have hph1 : travPhase s =
            (fsKeys s).length + 1 + curDepth s := by
          unfold travPhase
          rw [hfp1]
          simp
        unfold travMeasure
        rw [hkeq, hueq, hph1]
        unfold travPhase
        rw [hkeq]
        split
        · omega
        · omega
      · intro q hq
        exact hq
      · intro q hq
        simp at hq

/-- Fuel `travMeasure s` always suffices (strong induction on the measure). -/
theorem traverse_total :
    ∀ (m : Nat) (s : TravState), WF s → travMeasure s < m →
      ∃ n, (Node.traverse n s).isSome = true := by
  intro m
  induction m with
  | zero =>
    intro s _ hm
    omega
  | succ m ih =>
    intro s hwf hm
    rcases hst : traverseStep s with ⟨s2, ev⟩ | r
    · obtain ⟨hwf2, hlt, _, _⟩ := traverseStep_cont_spec hwf hst
      obtain ⟨n, hn⟩ := ih s2 hwf2 (by omega)
      refine ⟨n + 1, ?_⟩
      simp only [Node.traverse, hst]
      exact hn
    · refine ⟨1, ?_⟩
      simp [Node.traverse, hst]

instance instDecidableNodeOk (s : TravState) (n : Node) :
    Decidable (nodeOk s n) := by
  unfold nodeOk
  exact inferInstance

instance instDecidableChildrenOk (s : TravState) (k : Nat) :
    Decidable (childrenOk s k) := by
  unfold childrenOk
  exact inferInstance

instance instDecidableCurPathsNodup (s : TravState) :
    Decidable (curPathsNodup s) := by
  unfold curPathsNodup
  exact inferInstance

instance instDecidableWF (s : TravState) : Decidable (WF s) := by
  unfold WF
  exact inferInstance

/-- C2: for every well-formed traversal state over a finite modelled
filesystem (any include structure, cycles and shared sub-trees included),
the iterative loop of `Node::traverse` reaches `break`: some fuel returns a
report. Each `processed` flag flips false-to-true at most once (the covered
set grows monotonically), every iteration flips a flag, descends one level or
pops one level, and the lexicographic measure `travMeasure` strictly
decreases, so the fuel `travMeasure s + 1` suffices. -/
theorem node_traverse_terminates_c2 (s : TravState) (h : WF s) :
    ∃ n, (Node.traverse n s).isSome = true :=
  traverse_total (travMeasure s + 1) s h (by omega)

/-- The entry record of the chain fixture, as `FileInfo::create` parses it. -/
def chainEntryRec : FileInfo :=
  { abs_path := "Engine/M/A.h"
    file_name := "A.h"
    module := "Engine/M"
    file_type := FileType.Header
    includes := ["B.h"]
    processed := false }

/-- The initial traversal state of the chain fixture. -/
def chainInitState : TravState :=
  { proj :=
      { root_path := ""
        fs := chainFS
        modules := oneModule
        files := [chainEntryRec] }
    nodes := [{ file_info := 0, prev := none, children := [], node_path := [0] }]
    current := 0
    report := [] }

/-- The initial state of the chain fixture is well-formed, and the traversal
on it returns. -/
theorem node_traverse_terminates_c2_witness :
    WF chainInitState ∧
      ∃ n, (Node.traverse n chainInitState).isSome = true :=
  ⟨by decide, node_traverse_terminates_c2 chainInitState (by decide)⟩

/-- Every terminus absolute path recorded along a run was uncovered (no
processed record) at the start of the run. -/
theorem trace_not_covered :
    ∀ (n : Nat) (s : TravState), WF s →
      ∀ q ∈ traverseTrace n s, coveredB s.proj.files q = false := by
  intro n
  induction n with
  | zero =>
    intro s _ q hq
    simp [traverseTrace] at hq
  | succ n ih =>
    intro s hwf q hq
    unfold traverseTrace at hq
    rcases hst : traverseStep s with ⟨s2, ev⟩ | r
    · obtain ⟨hwf2, _, hmono, hev⟩ := traverseStep_cont_spec hwf hst
      rcases ev with _ | q0
      · rw [hst] at hq
        have hq2 := ih s2 hwf2 q hq
        rcases hc : coveredB s.proj.files q with _ | _
        · rfl
        · rw [hmono q hc] at hq2
          simp at hq2
      · rw [hst] at hq
        rcases List.mem_cons.mp hq with rfl | hq2
        · exact (hev q rfl).1
        · have hq3 := ih s2 hwf2 q hq2
          rcases hc : coveredB s.proj.files q with _ | _
          · rfl
          · rw [hmono q hc] at hq3
            simp at hq3
    · rw [hst] at hq
      simp at hq

/-- C10: within one traversal run each distinct file record contributes at
most one readable path to the report: the recorded terminus absolute paths
are pairwise distinct, because recording a cycle marks the terminus record
processed and a processed (covered) record is never recorded again. -/
theorem record_at_most_once_c10 (n : Nat) (s : TravState) (h : WF s) :
    (traverseTrace n s).Nodup := by
  induction n generalizing s with
  | zero => simp [traverseTrace]
  | succ n ih =>
    unfold traverseTrace
    rcases hst : traverseStep s with ⟨s2, ev⟩ | r
    · obtain ⟨hwf2, _, hmono, hev⟩ := traverseStep_cont_spec h hst
      rcases ev with _ | q0
      · exact ih s2 hwf2
      · rw [List.nodup_cons]
        refine ⟨?_, ih s2 hwf2⟩
        intro hmem
        have hq2 := trace_not_covered n s2 hwf2 q0 hmem
        have hcov := (hev q0 rfl).2
        rw [hcov] at hq2
        simp at hq2
    · simp

/-- The self-include fixture record and initial state. -/
def selfEntryRec : FileInfo :=
  { abs_path := "Engine/M/A.h"
    file_name := "A.h"
    module := "Engine/M"
    file_type := FileType.Header
    includes := ["A.h"]
    processed := false }

def selfInitState : TravState :=
  { proj :=
      { root_path := ""
        fs := selfFS
        modules := oneModule
        files := [selfEntryRec] }
    nodes := [{ file_info := 0, prev := none, children := [], node_path := [0] }]
    current := 0
    report := [] }

/-- The self-include initial state is well-formed and its recorded terminus
paths are distinct. -/
theorem record_at_most_once_c10_witness :
    WF selfInitState ∧ (traverseTrace 10 selfInitState).Nodup :=
  ⟨by decide, record_at_most_once_c10 10 selfInitState (by decide)⟩

/-! C7: resolver probe order. -/

/-- All candidate directories of a module list, in stored order. -/
def dirsConcat (ms : List (String × List String)) : List String :=
  ms.foldr (fun m acc => m.2 ++ acc) []

/-- The full directory probe order of `Project::get_file`: first the entry
module's candidate directories in stored order, then every other module's
directories in stored (ascending-name-length) order. -/
def probeDirs (modules : List (String × List String)) (entry_module : String) :
    List String :=
  match modules.find? (fun m => m.1 == entry_module) with
  | some modl =>
    modl.2 ++ dirsConcat (modules.filter (fun m => !(m.1 == modl.1)))
  | none => dirsConcat modules

/-- The first probed path that exists on the filesystem. -/
def firstHit (fs : FS) (dirs : List String) (tok : String) : Option String :=
  (dirs.map (fun d => d ++ "/" ++ tok)).find? (fun q => fsExists fs q)

theorem firstHit_append {fs : FS} {a b : List String} {tok : String} :
    firstHit fs (a ++ b) tok =
      match firstHit fs a tok with
      | some q => some q
      | none => firstHit fs b tok := by
  induction a with
  | nil => simp [firstHit]
  | cons d rest ih =>
    simp only [firstHit, List.cons_append, List.map_cons, List.find?_cons]
      at ih ⊢
    rcases hex : fsExists fs (d ++ "/" ++ tok) with _ | _
    · simp only [hex]
      exact ih
    · simp only [hex]

theorem firstHit_cons_none {fs : FS} {d : String} {rest : List String}
    {tok : String} (hex : fsExists fs (d ++ "/" ++ tok) = false) :
    firstHit fs (d :: rest) tok = firstHit fs rest tok := by
  simp [firstHit, List.find?_cons, hex]

theorem firstHit_cons_hit {fs : FS} {d : String} {rest : List String}
    {tok : String} (hex : fsExists fs (d ++ "/" ++ tok) = true) :
    firstHit fs (d :: rest) tok = some (d ++ "/" ++ tok) := by
  simp [firstHit, List.find?_cons, hex]

/-- A module whose directories produce no filesystem hit yields the
in-module not-found error and leaves the catalog unchanged. -/
theorem gfimGo_of_no_hit {fs : FS} {modules : List (String × List String)}
    {tok : String} :
    ∀ {dirs : List String} {files : List FileInfo},
    firstHit fs dirs tok = none →
      getFileInModuleGo fs modules tok dirs files =
        (Except.error SeekErr.fileNotFoundInModule, files) := by
  intro dirs
  induction dirs with
  | nil =>
    intro files _
    rfl
  | cons d rest ih =>
    intro files hmiss
    rcases hex : fsExists fs (d ++ "/" ++ tok) with _ | _
    · rw [firstHit_cons_none hex] at hmiss
      simp only [getFileInModuleGo, hex, Bool.false_eq_true, if_false]
      exact ih hmiss
    · rw [firstHit_cons_hit hex] at hmiss
      simp at hmiss

/-- With every existing file parseable, the first filesystem hit in a
module's directory list is resolved: cached if already in the catalog,
otherwise created at the end of the catalog. -/
theorem gfimGo_of_hit {fs : FS} {modules : List (String × List String)}
    {tok : String}
    (hparse : ∀ q, fsExists fs q = true →
      (FileInfo.create fs q modules).isOk = true) :
    ∀ {dirs : List String} {g : List FileInfo} {qh : String},
    firstHit fs dirs tok = some qh →
      ∃ i fl, getFileInModuleGo fs modules tok dirs g = (Except.ok i, fl)
        ∧ (fl.getD i default).abs_path = qh := by
  intro dirs
  induction dirs with
  | nil =>
    intro files qh h
    simp [firstHit] at h
  | cons d rest ih =>
    intro files qh hhit
    rcases hex : fsExists fs (d ++ "/" ++ tok) with _ | _
    · rw [firstHit_cons_none hex] at hhit
      obtain ⟨i, fl, h1, h2⟩ := ih hhit
      refine ⟨i, fl, ?_, h2⟩
      simp only [getFileInModuleGo, hex, Bool.false_eq_true, if_false]
      exact h1
    · rw [firstHit_cons_hit hex] at hhit
      simp only [Option.some.injEq] at hhit
      subst hhit
      rcases hidx : findIdxQ (fun f => f.abs_path == d ++ "/" ++ tok) files
          with _ | i
      · have hok := hparse _ hex
        rcases hcr : FileInfo.create fs (d ++ "/" ++ tok) modules
            with e | fi
        · rw [hcr] at hok
          simp [Except.isOk, Except.toBool] at hok
        · refine ⟨files.length, files ++ [fi], ?_, ?_⟩
          · simp only [getFileInModuleGo, hex, if_true]
            rw [hidx, hcr]
          · rw [List.getD_append_right _ _ _ _ (le_refl files.length)]
            simp [(create_ok_facts hcr).1]
      · refine ⟨i, files, ?_, ?_⟩
        · simp only [getFileInModuleGo, hex, if_true]
          rw [hidx]
        · have := (findIdxQ_eq_some hidx).2
          simpa using this

/-- `getFileGo` realizes the first filesystem hit across the stored module
order, and fails with the final not-found error when no probe hits. -/
theorem getFileGo_firstHit {fs : FS} {modules : List (String × List String)}
    {tok : String}
    (hparse : ∀ q, fsExists fs q = true →
      (FileInfo.create fs q modules).isOk = true) :
    ∀ {ms : List (String × List String)} {g : List FileInfo},
    (firstHit fs (dirsConcat ms) tok = none →
      getFileGo fs modules tok ms g =
        (Except.error SeekErr.fileNotFound, g)) ∧
    (∀ qh, firstHit fs (dirsConcat ms) tok = some qh →
      ∃ i fl, getFileGo fs modules tok ms g = (Except.ok i, fl) ∧
        (fl.getD i default).abs_path = qh) := by
  intro ms
  induction ms with
  | nil =>
    intro files
    constructor
    · intro _
      rfl
    · intro qh h
      simp [dirsConcat, firstHit] at h
  | cons m rest ih =>
    intro files
    have hdc : dirsConcat (m :: rest) = m.2 ++ dirsConcat rest := rfl
    constructor
    · intro hmiss
      rw [hdc, firstHit_append] at hmiss
      rcases hfa : firstHit fs m.2 tok with _ | q
      · rw [hfa] at hmiss
        simp only [getFileGo]
        rw [gfimGo_of_no_hit hfa]
        exact (ih (g := files)).1 hmiss
      · rw [hfa] at hmiss
        simp at hmiss
    · intro qh hhit
      rw [hdc, firstHit_append] at hhit
      rcases hfa : firstHit fs m.2 tok with _ | q
      · rw [hfa] at hhit
        obtain ⟨i, fl, h1, h2⟩ := (ih (g := files)).2 qh hhit
        refine ⟨i, fl, ?_, h2⟩
        simp only [getFileGo]
        rw [gfimGo_of_no_hit hfa]
        exact h1
      · rw [hfa] at hhit
        simp only [Option.some.injEq] at hhit
        subst hhit
        obtain ⟨i, fl, h1, h2⟩ := gfimGo_of_hit hparse (g := files) hfa
        refine ⟨i, fl, ?_, h2⟩
        simp only [getFileGo]
        rw [h1]

/-- C7: an include token that misses every candidate directory of its own
(indexed) module is probed against every other indexed module in stored
order (ascending name length as constructed); the first filesystem hit
anywhere in that order is the resolved record, even when several modules
contain a file at the probed relative path, and resolution fails only when
no probe anywhere hits. -/
theorem resolver_fallback_order_c7 (p : Project) (tok em : String)
    (modl : String × List String)
    (hroot : p.modules.find? (fun m => m.1 == em) = some modl)
    (hparse : ∀ e ∈ p.fs, (FileInfo.create p.fs e.1 p.modules).isOk = true)
    (hmiss : firstHit p.fs modl.2 tok = none) :
    (∀ qh, firstHit p.fs (probeDirs p.modules em) tok = some qh →
      ∃ i, (Project.get_file p tok em).1 = Except.ok i ∧
        ((Project.get_file p tok em).2.files.getD i default).abs_path = qh) ∧
    (firstHit p.fs (probeDirs p.modules em) tok = none →
      (Project.get_file p tok em).1 = Except.error SeekErr.fileNotFound) := by
  have hparse2 : ∀ q, fsExists p.fs q = true →
      (FileInfo.create p.fs q p.modules).isOk = true := by
    intro q hq
    rw [fsExists, fsLookup, Option.isSome_map'] at hq
    rcases hf : p.fs.find? (fun e => e.1 == q) with _ | e
    · rw [hf] at hq
      simp at hq
    · have hmem : e ∈ p.fs := List.mem_of_find?_eq_some hf
      have hpe := List.find?_some hf
      simp only [beq_iff_eq] at hpe
      rw [← hpe]
      exact hparse e hmem
  have hpd : probeDirs p.modules em =
      modl.2 ++ dirsConcat (p.modules.filter (fun m => !(m.1 == modl.1))) := by
    unfold probeDirs
    rw [hroot]
  have hgf : Project.get_file p tok em =
      ((getFileGo p.fs p.modules tok
          (p.modules.filter (fun m => !(m.1 == modl.1))) p.files).1,
        { p with files := (getFileGo p.fs p.modules tok
          (p.modules.filter (fun m => !(m.1 == modl.1))) p.files).2 }) := by
    unfold Project.get_file
    rw [hroot]
    dsimp only
    rw [gfimGo_of_no_hit hmiss]
  constructor
  · intro qh hhit
    rw [hpd, firstHit_append, hmiss] at hhit
    obtain ⟨i, fl, h1, h2⟩ :=
      (getFileGo_firstHit hparse2 (g := p.files)).2 qh hhit
    refine ⟨i, ?_, ?_⟩
    · rw [hgf, h1]
    · rw [hgf, h1]
      exact h2
  · intro hnone
    rw [hpd, firstHit_append, hmiss] at hnone
    rw [hgf, (getFileGo_firstHit hparse2 (g := p.files)).1 hnone]

/-- Fallback fixture: token `X.h` misses the entry module `Engine/A` and
resolves in the other module `Engine/BB`. -/
def fbProj : Project :=
  { root_path := ""
    fs := [("Engine/A/Main.h", ["int x;"]), ("Engine/BB/X.h", ["int y;"])]
    modules := [("Engine/A", ["Engine/A"]), ("Engine/BB", ["Engine/BB"])]
    files := [] }

theorem resolver_fallback_order_c7_witness :
    (fbProj.modules.find? (fun m => m.1 == "Engine/A") =
        some ("Engine/A", ["Engine/A"]) ∧
      (∀ e ∈ fbProj.fs,
        (FileInfo.create fbProj.fs e.1 fbProj.modules).isOk = true) ∧
      firstHit fbProj.fs ["Engine/A"] "X.h" = none) ∧
    ((∀ qh, firstHit fbProj.fs (probeDirs fbProj.modules "Engine/A") "X.h"
        = some qh →
      ∃ i, (Project.get_file fbProj "X.h" "Engine/A").1 = Except.ok i ∧
        ((Project.get_file fbProj "X.h" "Engine/A").2.files.getD i default
          ).abs_path = qh) ∧
    (firstHit fbProj.fs (probeDirs fbProj.modules "Engine/A") "X.h" = none →
      (Project.get_file fbProj "X.h" "Engine/A").1 =
        Except.error SeekErr.fileNotFound)) :=
  ⟨⟨by decide, by decide, by decide⟩,
    resolver_fallback_order_c7 fbProj "X.h" "Engine/A"
      ("Engine/A", ["Engine/A"]) (by decide) (by decide) (by decide)⟩

/-! C8: cached idempotence of resolution. -/

theorem findIdxQ_append_none {p : α → Bool} {l : List α}
    (h : findIdxQ p l = none) {y : α} (hy : p y = false) :
    findIdxQ p (l ++ [y]) = none := by
  induction l with
  | nil => simp [findIdxQ, hy]
  | cons x xs ih =>
    simp only [findIdxQ] at h ⊢
    rcases hp : p x with _ | _
    · rw [hp] at h
      simp only [Bool.false_eq_true, if_false, Option.map_eq_none'] at h
      simp [ih h]
    · rw [hp] at h
      simp at h

/-- A successful in-module resolution, re-run from the updated catalog,
returns the identical record index and leaves the catalog unchanged. -/
theorem gfimGo_repeat {fs : FS} {modules : List (String × List String)}
    {pp : String} : ∀ {dirs : List String} {files : List FileInfo} {i : Nat}
    {fl : List FileInfo},
    getFileInModuleGo fs modules pp dirs files = (Except.ok i, fl) →
      getFileInModuleGo fs modules pp dirs fl = (Except.ok i, fl) := by
  intro dirs
  induction dirs with
  | nil =>
    intro files i fl h
    simp [getFileInModuleGo] at h
  | cons d rest ih =>
    intro files i fl h
    rcases hex : fsExists fs (d ++ "/" ++ pp) with _ | _
    · simp only [getFileInModuleGo, hex, Bool.false_eq_true, if_false]
        at h ⊢
      exact ih h
    · simp only [getFileInModuleGo, hex, if_true] at h ⊢
      rcases hidx : findIdxQ (fun f => f.abs_path == d ++ "/" ++ pp) files
          with _ | j
      · rw [hidx] at h
        rcases hcr : FileInfo.create fs (d ++ "/" ++ pp) modules with e | fi
        · rw [hcr] at h
          simp at h
        · rw [hcr] at h
          simp only [Prod.mk.injEq, Except.ok.injEq] at h
          obtain ⟨hi, hfl⟩ := h
          have hfieq : (fi.abs_path == d ++ "/" ++ pp) = true := by
            simp [(create_ok_facts hcr).1]
          rw [← hfl, ← hi]
          rw [findIdxQ_append_hit hidx hfieq]
      · rw [hidx] at h
        simp only [Prod.mk.injEq, Except.ok.injEq] at h
        obtain ⟨hi, hfl⟩ := h
        rw [← hfl, ← hi]
        rw [hidx]

/-- An in-module resolution failure is stable under extending the catalog by
a record that parses successfully at its own path. -/
theorem gfimGo_error_ext {fs : FS} {modules : List (String × List String)}
    {pp : String} {fi : FileInfo}
    (hcr : FileInfo.create fs fi.abs_path modules = Except.ok fi) :
    ∀ {dirs : List String} {files : List FileInfo} {e : SeekErr},
    getFileInModuleGo fs modules pp dirs files = (Except.error e, files) →
      getFileInModuleGo fs modules pp dirs (files ++ [fi]) =
        (Except.error e, files ++ [fi]) := by
  intro dirs
  induction dirs with
  | nil =>
    intro files e h
    simp only [getFileInModuleGo, Prod.mk.injEq] at h ⊢
    exact ⟨h.1, trivial⟩
  | cons d rest ih =>
    intro files e h
    rcases hex : fsExists fs (d ++ "/" ++ pp) with _ | _
    · simp only [getFileInModuleGo, hex, Bool.false_eq_true, if_false]
        at h ⊢
      exact ih h
    · simp only [getFileInModuleGo, hex, if_true] at h ⊢
      rcases hidx : findIdxQ (fun f => f.abs_path == d ++ "/" ++ pp) files
          with _ | j
      · rw [hidx] at h
        rcases hcr2 : FileInfo.create fs (d ++ "/" ++ pp) modules with e2 | fi2
        · rw [hcr2] at h
          simp only [Prod.mk.injEq] at h
          have hfip : (fi.abs_path == d ++ "/" ++ pp) = false := by
            rcases hb : (fi.abs_path == d ++ "/" ++ pp) with _ | _
            · rfl
            · rw [beq_iff_eq] at hb
              rw [hb] at hcr
              rw [hcr] at hcr2
              simp at hcr2
          rw [findIdxQ_append_none hidx hfip]
          dsimp only
          rw [h.1]
        · rw [hcr2] at h
          simp at h
      · rw [hidx] at h
        simp at h

/-- A successful fallback resolution, re-run from the updated catalog,
returns the identical record index and leaves the catalog unchanged. -/
theorem getFileGo_repeat {fs : FS} {modules : List (String × List String)}
    {pp : String} : ∀ {ms : List (String × List String)}
    {files : List FileInfo} {i : Nat} {fl : List FileInfo},
    getFileGo fs modules pp ms files = (Except.ok i, fl) →
      getFileGo fs modules pp ms fl = (Except.ok i, fl) := by
  intro ms
  induction ms with
  | nil =>
    intro files i fl h
    simp [getFileGo] at h
  | cons m rest ih =>
    intro files i fl h
    simp only [getFileGo] at h ⊢
    rcases hg : getFileInModuleGo fs modules pp m.2 files with ⟨rg, flg⟩
    rw [hg] at h
    cases rg with
    | ok j =>
      dsimp only at h
      simp only [Prod.mk.injEq, Except.ok.injEq] at h
      obtain ⟨hi, hfl⟩ := h
      rw [← hfl, ← hi]
      rw [gfimGo_repeat hg]
    | error e =>
      dsimp only at h
      have hfg : flg = files := gfimGo_error_files hg
      rw [hfg] at hg h
      obtain ⟨_, hok⟩ := getFileGo_shape h
      rcases hok i rfl with ⟨hfl2, _⟩ | ⟨fi, hfl2, _, hcr, _⟩
      · rw [hfl2]
        rw [hg]
        dsimp only
        rw [← hfl2]
        exact ih h
      · rw [hfl2]
        rw [gfimGo_error_ext hcr hg]
        dsimp only
        rw [← hfl2]
        exact ih h

/-- C8 core: a successful `get_file`, re-run against the state it produced,
returns the identical cached record and changes nothing. -/
theorem get_file_repeat {p : Project} {tok em : String} {i : Nat}
    {p2 : Project} (h : Project.get_file p tok em = (Except.ok i, p2)) :
    Project.get_file p2 tok em = (Except.ok i, p2) := by
  obtain ⟨hrp, hfs, hmods, _, hok⟩ := get_file_shape h
  unfold Project.get_file at h ⊢
  rw [hmods, hfs]
  rcases hroot : p.modules.find? (fun m => m.1 == em) with _ | modl
  · rw [hroot] at h ⊢
    dsimp only at h ⊢
    simp only [Prod.mk.injEq] at h
    obtain ⟨h1, h2⟩ := h
    have hpf : p2.files =
        (getFileGo p.fs p.modules tok p.modules p.files).2 := by
      rw [← h2]
    have hgo : getFileGo p.fs p.modules tok p.modules p.files =
        (Except.ok i, p2.files) := by
      rw [hpf, ← h1]
    have hrep := getFileGo_repeat hgo
    rw [hrep]
    dsimp only
    rw [← hfs, ← hmods]
  · rw [hroot] at h ⊢
    dsimp only at h ⊢
    rcases hg : getFileInModuleGo p.fs p.modules tok modl.2 p.files
        with ⟨rg, flg⟩
    rw [hg] at h
    cases rg with
    | ok j =>
      dsimp only at h
      simp only [Prod.mk.injEq, Except.ok.injEq] at h
      obtain ⟨hj, h2⟩ := h
      have hpf : p2.files = flg := by
        rw [← h2]
      rw [hpf, gfimGo_repeat hg]
      dsimp only
      rw [hj, ← hpf, ← hfs, ← hmods]
    | error e =>
      dsimp only at h
      have hfg : flg = p.files := gfimGo_error_files hg
      rw [hfg] at hg h
      simp only [Prod.mk.injEq] at h
      obtain ⟨h1, h2⟩ := h
      have hpf : p2.files = (getFileGo p.fs p.modules tok
          (List.filter (fun m => !(m.1 == modl.1)) p.modules) p.files).2 := by
        rw [← h2]
      have hgo : getFileGo p.fs p.modules tok
          (List.filter (fun m => !(m.1 == modl.1)) p.modules) p.files =
          (Except.ok i, p2.files) := by
        rw [hpf, ← h1]
      rcases hok i rfl with ⟨hfl2, _⟩ | ⟨fi, hfl2, _, hcr, _⟩
      · rw [hfl2, hg]
        dsimp only
        rw [hgo]
        dsimp only
        rw [← hfs, ← hmods]
      · rw [hfl2, gfimGo_error_ext hcr hg]
        dsimp only
        rw [← hfl2]
        rw [getFileGo_repeat hgo]
        dsimp only
        rw [← hfs, ← hmods]

/-- Cache fixture for the idempotence claim: one module, one file on disk,
an empty catalog. -/
def c8Proj : Project :=
  { root_path := ""
    fs := [("Engine/M/A.h", ["int x;"])]
    modules := [("Engine/M", ["Engine/M"])]
    files := [] }

/-- C8: resolving the same raw include token against the same entry module a
second time, against the state the first resolution produced, returns the
identical cached record and leaves the state unchanged; and resolution
preserves catalog uniqueness: if the catalog holds no two records with the
same absolute path, the catalog after `get_file` still holds none (a record
is only appended under a certificate that no cached record carries its
absolute path). -/
theorem get_file_cached_idempotent_c8 (p : Project) (tok em : String)
    (hnd : (pathsOf p.files).Nodup) :
    (∀ i p2, Project.get_file p tok em = (Except.ok i, p2) →
      Project.get_file p2 tok em = (Except.ok i, p2)) ∧
    (pathsOf (Project.get_file p tok em).2.files).Nodup := by
  constructor
  · intro i p2 h
    exact get_file_repeat h
  · rcases hr : Project.get_file p tok em with ⟨r, p2⟩
    obtain ⟨_, _, _, herr, hok⟩ := get_file_shape hr
    dsimp only
    cases r with
    | error e =>
      rw [herr ⟨e, rfl⟩]
      exact hnd
    | ok i =>
      rcases hok i rfl with ⟨hfl, _⟩ | ⟨fi, hfl, _, _, hfind⟩
      · rw [hfl]
        exact hnd
      · rw [hfl]
        have hnotmem : fi.abs_path ∉ pathsOf p.files := by
          intro hmem
          simp only [pathsOf, List.mem_map] at hmem
          obtain ⟨g, hg, hge⟩ := hmem
          have hfalse := findIdxQ_eq_none hfind g hg
          rw [hge] at hfalse
          simp at hfalse
        simp only [pathsOf, List.map_append, List.map_cons, List.map_nil]
        refine List.Nodup.append hnd (List.nodup_singleton _) ?_
        intro a ha hb
        simp only [List.mem_singleton] at hb
        subst hb
        exact hnotmem ha

theorem get_file_cached_idempotent_c8_witness :
    (pathsOf c8Proj.files).Nodup ∧
    ((∀ i p2, Project.get_file c8Proj "A.h" "Engine/M" = (Except.ok i, p2) →
        Project.get_file p2 "A.h" "Engine/M" = (Except.ok i, p2)) ∧
      (pathsOf (Project.get_file c8Proj "A.h" "Engine/M").2.files).Nodup) :=
  ⟨by decide, get_file_cached_idempotent_c8 c8Proj "A.h" "Engine/M" (by decide)⟩
